import Mathlib

/-!
# BellTimer: verification of the schedule-evaluation and device-orchestration core

A shallow embedding, in Lean 4, of the control logic of `main.py` from the
BellTimer repository (an ESP32 school-bell controller written in MicroPython),
together with proofs about the embedded definitions.

Conventions of the embedding:

* Python dicts that come from JSON documents keep their document (insertion)
  order and are modelled as association lists (`List (key × value)`); lookup
  returns the value of the first matching key, exactly as a dict with unique
  keys does.  Python dict truthiness (`if d:`) is emptiness of the list, and
  `d.get(k)` / `k in d` are modelled by `dictGet` below.
* A Python dict representing one schedule event is modelled by the structure
  `BellEvent` whose fields are `Option`-valued: `none` means the key is absent
  from the dict.  The only keys the program ever touches are
  `time`, `bellname`, `relay`, `belllength` and `day_name`.
* Code that can raise an uncaught exception is modelled with `Option`
  (`none` = the exception escapes): in `find_next_bell` the expression
  `event['time']` raises `KeyError` when the key is missing, `t[1]` raises
  `IndexError` when the split produced a single part, and `int(...)` raises
  `ValueError` on a non-numeric field; in `fetch_manifest_and_schedule` the
  expression `next(iter(d))` raises `StopIteration` on an empty dict.
* Python strings are compared lexicographically by code point; the embedding
  compares the underlying `List Char` with `clLt`/`clLe` defined below, which
  is exactly that order.  Python `sorted` is a stable ascending sort and is
  embedded as `List.insertionSort` with the same key, which is also stable.
* The `utime` time sources are parameters: the DST-corrected local time is
  passed in as a `LocalTime` value, and `utime.ticks_ms()` readings as `Nat`
  arguments (so `utime.ticks_diff(now, start)` is `now - start`, assuming no
  wrap-around of the tick counter during one press).
-/

namespace BellTimer

/-! ## Python string primitives used by `main.py` -/

/-- Code-point comparison of single characters, as Python compares characters
inside strings. -/
def charLt (a b : Char) : Prop := a.toNat < b.toNat

instance : DecidableRel charLt := fun a b => inferInstanceAs (Decidable (a.toNat < b.toNat))

theorem charEq_of_toNat_eq {a b : Char} (h : a.toNat = b.toNat) : a = b :=
  Char.eq_of_val_eq (UInt32.ext h)

/-- Lexicographic (code-point) `≤` on character lists: the order Python uses
for `str <= str`, and the order realised by `sorted` over string keys. -/
def clLe : List Char → List Char → Prop
  | [], _ => True
  | _ :: _, [] => False
  | a :: as, b :: bs => charLt a b ∨ (a = b ∧ clLe as bs)

/-- Decision procedure for `clLe`, by structural recursion on both lists. -/
def clLe.dec : (a b : List Char) → Decidable (clLe a b)
  | [], _ => isTrue trivial
  | _ :: _, [] => isFalse (fun h => h)
  | a :: as, b :: bs =>
    have : Decidable (clLe as bs) := clLe.dec as bs
    inferInstanceAs (Decidable (charLt a b ∨ (a = b ∧ clLe as bs)))

instance : DecidableRel clLe := clLe.dec

theorem clLe_total : ∀ a b : List Char, clLe a b ∨ clLe b a
  | [], _ => Or.inl trivial
  | _ :: _, [] => Or.inr trivial
  | a :: as, b :: bs => by
    rcases Nat.lt_trichotomy a.toNat b.toNat with h | h | h
    · exact Or.inl (Or.inl h)
    · have hab : a = b := charEq_of_toNat_eq h
      rcases clLe_total as bs with ih | ih
      · exact Or.inl (Or.inr ⟨hab, ih⟩)
      · exact Or.inr (Or.inr ⟨hab.symm, ih⟩)
    · exact Or.inr (Or.inl h)

theorem clLe_trans : ∀ {a b c : List Char}, clLe a b → clLe b c → clLe a c
  | [], _, _, _, _ => trivial
  | _ :: _, [], _, h, _ => h.elim
  | _ :: _, _ :: _, [], _, h => h.elim
  | a :: as, b :: bs, c :: cs, h1, h2 => by
    rcases h1 with h1 | ⟨rfl, h1⟩
    · rcases h2 with h2 | ⟨rfl, h2⟩
      · exact Or.inl (Nat.lt_trans h1 h2)
      · exact Or.inl h1
    · rcases h2 with h2 | ⟨rfl, h2⟩
      · exact Or.inl h2
      · exact Or.inr ⟨rfl, clLe_trans h1 h2⟩

/-- Python `str.split(':')` on the underlying character list: splits at every
colon; the result always has at least one (possibly empty) part. -/
def splitOnColon : List Char → List (List Char)
  | [] => [[]]
  | c :: cs =>
    if c = ':' then [] :: splitOnColon cs
    else
      match splitOnColon cs with
      | [] => [[c]]
      | p :: ps => (c :: p) :: ps

/-- Numeric value of a decimal digit character, `none` for a non-digit. -/
def digitVal (c : Char) : Option Nat :=
  if 48 ≤ c.toNat ∧ c.toNat ≤ 57 then some (c.toNat - 48) else none

/-- Accumulating scan over decimal digit characters. -/
def digitsValGo : List Char → Nat → Option Nat
  | [], acc => some acc
  | c :: cs, acc =>
    match digitVal c with
    | none => none
    | some d => digitsValGo cs (acc * 10 + d)

/-- Value of a non-empty all-digit character list, `none` otherwise. -/
def digitsVal (l : List Char) : Option Nat :=
  if l = [] then none else digitsValGo l 0

/-- Python `int(s)` on a string given as its character list: an optional sign
followed by at least one decimal digit (`none` models the `ValueError` raised
on any other input).  Pythonic extras such as surrounding whitespace or
underscore digit separators are not modelled; no claim depends on them. -/
def pyInt (l : List Char) : Option Int :=
  match l with
  | [] => none
  | c :: rest =>
    if c = '-' then (digitsVal rest).map (fun n => -(n : Int))
    else if c = '+' then (digitsVal rest).map (fun n => (n : Int))
    else (digitsVal (c :: rest)).map (fun n => (n : Int))

/-! ## Data model: events, schedules, local time (`main.py` globals) -/

/-- One schedule event: a JSON object `{"time": .., "bellname": .., "relay": ..,
"belllength": ..}` as fetched, plus the `day_name` key that `find_next_bell`
writes into the selected event (line 297 of `main.py`).  A `none` field models
an absent dict key. -/
structure BellEvent where
  time : Option String
  bellname : Option String
  relay : Option Int
  belllength : Option Int
  day_name : Option String
  deriving DecidableEq, Repr

/-- Sort key used at line 291 of `main.py`: `lambda x: x.get('time','')`. -/
def timeKey (e : BellEvent) : String := e.time.getD ""

/-- Embedding of lines 292-293 of `main.py`:
`t = event['time'].split(':'); event_mins = int(t[0])*60 + int(t[1])`.
The argument is the event's `time` field; `none` models the `KeyError`
(`time` absent), `IndexError` (`t[1]` on a colon-free string) and
`ValueError` (non-numeric field) escapes. -/
def timeMins : Option String → Option Int
  | none => none
  | some s =>
    match splitOnColon s.data with
    | p0 :: p1 :: _ =>
      match pyInt p0, pyInt p1 with
      | some h, some m => some (h * 60 + m)
      | _, _ => none
    | _ => none

/-- Event comparison used by `sorted(schedule[day_str], key=lambda x:
x.get('time',''))`: compare the (defaulted) time strings lexicographically. -/
def eventTimeLe (a b : BellEvent) : Prop := clLe (timeKey a).data (timeKey b).data

instance : DecidableRel eventTimeLe := fun a b =>
  inferInstanceAs (Decidable (clLe (timeKey a).data (timeKey b).data))

instance : IsTotal BellEvent eventTimeLe :=
  ⟨fun a b => clLe_total (timeKey a).data (timeKey b).data⟩

instance : IsTrans BellEvent eventTimeLe :=
  ⟨fun _ _ _ h1 h2 => clLe_trans h1 h2⟩

/-- The in-memory `schedule` global: a JSON object keyed by weekday strings
`"0"`..`"6"`, each value a list of events, in document order. -/
abbrev Schedule := List (String × List BellEvent)

/-- Python `d.get(k)` / `k in d` on a JSON-object dict in document order:
value of the first (only) matching key. -/
def dictGet : Schedule → String → Option (List BellEvent)
  | [], _ => none
  | (k, v) :: rest, key => if k = key then some v else dictGet rest key

/-- Assignment `d[k] = v` for a key already present: replaces the value in
place, keeping dict order. -/
def dictSet : Schedule → String → List BellEvent → Schedule
  | [], _, _ => []
  | (k, v) :: rest, key, nv => if k = key then (k, nv) :: rest else (k, v) :: dictSet rest key nv

/-- The `DAYS_OF_WEEK` constant of `main.py` (line 48). -/
def DAYS_OF_WEEK : List String := ["Mon", "Tue", "Wed", "Thu", "Fri", "Sat", "Sun"]

/-- Python `str(day_idx)` for the weekday index. -/
def dayKey (n : Nat) : String := toString n

/-- DST-corrected local time as returned by `get_local_time()`: only the
fields `find_next_bell` and the minute-edge trigger read (`now[3]` hour,
`now[4]` minute, `now[6]` weekday, Monday = 0).  `utime.localtime` guarantees
`hour < 24`, `minute < 60`, `weekday < 7`; theorems state these bounds
explicitly where they matter. -/
structure LocalTime where
  hour : Nat
  minute : Nat
  weekday : Nat
  deriving DecidableEq, Repr

/-- Line 286 of `main.py`: `now_mins = now[3]*60 + now[4]`. -/
def nowMins (t : LocalTime) : Nat := t.hour * 60 + t.minute

/-! ## `find_next_bell` (lines 281-299 of `main.py`) -/

/-- Scan of one day's time-sorted event list (inner `for` loop, lines
291-298): parse each event's time (`none` = a parse exception escapes), skip
past events when `skipPast` is set (`day_offset == 0`), and return the first
qualifying event (`some (some e)`), or `some none` when every event of the
day is skipped. -/
def scanSortedEvents (skipPast : Bool) (nowM : Nat) : List BellEvent → Option (Option BellEvent)
  | [] => some none
  | e :: rest =>
    match timeMins e.time with
    | none => none
    | some m =>
      if skipPast = true ∧ m ≤ (nowM : Int) then scanSortedEvents skipPast nowM rest
      else some (some e)

/-- Outer `for day_offset in range(7)` loop of `find_next_bell` (lines
287-298), over the remaining day offsets: find the first offset whose
(non-empty, sorted) day list yields a qualifying event; also return the day
index so the caller can annotate and write back.  `none` models an escaping
parse exception. -/
def findBellLoop (sched : Schedule) (wd : Nat) (nowM : Nat) : List Nat → Option (Option (Nat × BellEvent))
  | [] => some none
  | off :: rest =>
    let dayIdx := (wd + off) % 7
    match dictGet sched (dayKey dayIdx) with
    | none => findBellLoop sched wd nowM rest
    | some evs =>
      if evs = [] then findBellLoop sched wd nowM rest
      else
        match scanSortedEvents (decide (off = 0)) nowM (List.insertionSort eventTimeLe evs) with
        | none => none
        | some none => findBellLoop sched wd nowM rest
        | some (some e) => some (some (dayIdx, e))

/-- Embedding of `find_next_bell` (lines 281-299 of `main.py`).  Python
mutates two globals; the embedding returns both: the new `next_bell_event`
(`none` for the empty dict `{}`) and the new `schedule`.  The schedule is
returned because line 297, `next_bell_event['day_name'] = ...`, mutates the
selected event dict *in place*, and that dict is aliased inside
`schedule[day_str]`: the write is visible in the schedule.  `sorted` is
stable, so among value-equal duplicate events the scan selects the first
occurrence in document order; `List.replace` rewrites exactly that
occurrence.  The overall `none` models an escaping parse exception. -/
def find_next_bell (sched : Schedule) (now : LocalTime) : Option (Option BellEvent × Schedule) :=
  if sched = [] then some (none, sched)
  else
    match findBellLoop sched now.weekday (nowMins now) [0, 1, 2, 3, 4, 5, 6] with
    | none => none
    | some none => some (none, sched)
    | some (some (dayIdx, e)) =>
      let e2 := { e with day_name := some (DAYS_OF_WEEK.getD dayIdx "") }
      match dictGet sched (dayKey dayIdx) with
      | none => some (some e2, sched)
      | some evs => some (some e2, dictSet sched (dayKey dayIdx) (evs.replace e e2))


/-! ## Zero-padded time strings and the order bridge -/

def twoDigits (n : Nat) : List Char := [Char.ofNat (48 + n / 10), Char.ofNat (48 + n % 10)]

def hhmmStr (h m : Nat) : String := ⟨twoDigits h ++ ':' :: twoDigits m⟩

theorem digit_toNat : ∀ d : Nat, d ≤ 9 → (Char.ofNat (48 + d)).toNat = 48 + d := by decide

theorem charEq_iff_toNat (a b : Char) : a = b ↔ a.toNat = b.toNat :=
  ⟨fun h => h ▸ rfl, charEq_of_toNat_eq⟩

theorem hhmm_clLe_iff {h m h2 m2 : Nat} (hh : h < 100) (hm : m < 60) (hh2 : h2 < 100) (hm2 : m2 < 60) :
    clLe (hhmmStr h m).data (hhmmStr h2 m2).data ↔ h * 60 + m ≤ h2 * 60 + m2 := by
  show clLe (twoDigits h ++ ':' :: twoDigits m) (twoDigits h2 ++ ':' :: twoDigits m2) ↔ _
  simp only [twoDigits, List.cons_append, List.nil_append]
  simp only [clLe, charLt, charEq_iff_toNat]
  rw [digit_toNat (h / 10) (by omega), digit_toNat (h % 10) (by omega),
    digit_toNat (m / 10) (by omega), digit_toNat (m % 10) (by omega),
    digit_toNat (h2 / 10) (by omega), digit_toNat (h2 % 10) (by omega),
    digit_toNat (m2 / 10) (by omega), digit_toNat (m2 % 10) (by omega)]
  simp only [lt_self_iff_false, false_or, true_and]
  constructor
  · rintro (h1 | ⟨h1, h2 | ⟨h2, h3 | ⟨h3, h4 | ⟨h4, -⟩⟩⟩⟩) <;> omega
  · intro hv
    rcases Nat.lt_trichotomy (h / 10) (h2 / 10) with c1 | c1 | c1
    · exact Or.inl (by omega)
    · rcases Nat.lt_trichotomy (h % 10) (h2 % 10) with c2 | c2 | c2
      · exact Or.inr ⟨by omega, Or.inl (by omega)⟩
      · rcases Nat.lt_trichotomy (m / 10) (m2 / 10) with c3 | c3 | c3
        · exact Or.inr ⟨by omega, Or.inr ⟨by omega, Or.inl (by omega)⟩⟩
        · rcases Nat.lt_trichotomy (m % 10) (m2 % 10) with c4 | c4 | c4
          · exact Or.inr ⟨by omega, Or.inr ⟨by omega, Or.inr ⟨by omega, Or.inl (by omega)⟩⟩⟩
          · exact Or.inr ⟨by omega, Or.inr ⟨by omega, Or.inr ⟨by omega, Or.inr ⟨by omega, trivial⟩⟩⟩⟩
          · exact absurd hv (by omega)
        · exact absurd hv (by omega)
      · exact absurd hv (by omega)
    · exact absurd hv (by omega)

/-- Boolean digit test on a character. -/
def isDigitB (c : Char) : Bool := 48 ≤ c.toNat && c.toNat ≤ 57

/-- Boolean recogniser of well-formed zero-padded `"HH:MM"` time strings with
hour below 24 and minute below 60 — the BellEvent invariant stated in the
spec's data model ("time strings zero-padded so lexicographic order =
chronological order"). -/
def isHHMM (s : String) : Bool :=
  match s.data with
  | [c1, c2, c3, c4, c5] =>
    c3 == ':' && isDigitB c1 && isDigitB c2 && isDigitB c4 && isDigitB c5 &&
    decide ((c1.toNat - 48) * 10 + (c2.toNat - 48) < 24) &&
    decide ((c4.toNat - 48) * 10 + (c5.toNat - 48) < 60)
  | _ => false

theorem digit_ne_colon : ∀ d : Nat, d ≤ 9 → ¬(Char.ofNat (48 + d) = ':') := by decide

theorem digit_ne_minus : ∀ d : Nat, d ≤ 9 → ¬(Char.ofNat (48 + d) = '-') := by decide

theorem digit_ne_plus : ∀ d : Nat, d ≤ 9 → ¬(Char.ofNat (48 + d) = '+') := by decide

/-- Every string accepted by `isHHMM` is `hhmmStr h m` for in-range hour and
minute values. -/
theorem isHHMM_canon {s : String} (hs : isHHMM s = true) :
    ∃ h m, h < 24 ∧ m < 60 ∧ s = hhmmStr h m := by
  obtain ⟨l⟩ := s
  match l, hs with
  | [], hs => simp [isHHMM] at hs
  | [_], hs => simp [isHHMM] at hs
  | [_, _], hs => simp [isHHMM] at hs
  | [_, _, _], hs => simp [isHHMM] at hs
  | [_, _, _, _], hs => simp [isHHMM] at hs
  | _ :: _ :: _ :: _ :: _ :: _ :: _, hs => simp [isHHMM] at hs
  | [c1, c2, c3, c4, c5], hs =>
    simp only [isHHMM, isDigitB, Bool.and_eq_true, beq_iff_eq, decide_eq_true_eq] at hs
    obtain ⟨⟨⟨⟨⟨⟨hc3, hd1a, hd1b⟩, hd2a, hd2b⟩, hd4a, hd4b⟩, hd5a, hd5b⟩, h24⟩, h60⟩ := hs
    refine ⟨(c1.toNat - 48) * 10 + (c2.toNat - 48), (c4.toNat - 48) * 10 + (c5.toNat - 48),
      h24, h60, ?_⟩
    have e1 : ((c1.toNat - 48) * 10 + (c2.toNat - 48)) / 10 = c1.toNat - 48 := by omega
    have e2 : ((c1.toNat - 48) * 10 + (c2.toNat - 48)) % 10 = c2.toNat - 48 := by omega
    have e4 : ((c4.toNat - 48) * 10 + (c5.toNat - 48)) / 10 = c4.toNat - 48 := by omega
    have e5 : ((c4.toNat - 48) * 10 + (c5.toNat - 48)) % 10 = c5.toNat - 48 := by omega
    simp only [hhmmStr, twoDigits, e1, e2, e4, e5]
    have f1 : Char.ofNat (48 + (c1.toNat - 48)) = c1 := by
      have h48 : 48 + (c1.toNat - 48) = c1.toNat := by omega
      rw [h48, Char.ofNat_toNat]
    have f2 : Char.ofNat (48 + (c2.toNat - 48)) = c2 := by
      have h48 : 48 + (c2.toNat - 48) = c2.toNat := by omega
      rw [h48, Char.ofNat_toNat]
    have f4 : Char.ofNat (48 + (c4.toNat - 48)) = c4 := by
      have h48 : 48 + (c4.toNat - 48) = c4.toNat := by omega
      rw [h48, Char.ofNat_toNat]
    have f5 : Char.ofNat (48 + (c5.toNat - 48)) = c5 := by
      have h48 : 48 + (c5.toNat - 48) = c5.toNat := by omega
      rw [h48, Char.ofNat_toNat]
    rw [f1, f2, f4, f5, hc3]
    exact congrArg String.mk (by simp)

/-- Splitting a colon-free character list is the identity. -/
theorem splitOnColon_no_colon : ∀ l : List Char, (∀ c ∈ l, c ≠ ':') → splitOnColon l = [l] := by
  intro l
  induction l with
  | nil => intro _; rfl
  | cons c cs ih =>
    intro hfree
    have hc : ¬(c = ':') := hfree c (by simp)
    have hrest := ih (fun d hd => hfree d (by simp [hd]))
    simp only [splitOnColon, if_neg hc, hrest]

/-- Splitting a list whose first colon separates two parts. -/
theorem splitOnColon_mid (l1 l2 : List Char) (hfree : ∀ c ∈ l1, c ≠ ':') :
    splitOnColon (l1 ++ ':' :: l2) = l1 :: splitOnColon l2 := by
  induction l1 with
  | nil => simp [splitOnColon]
  | cons c cs ih =>
    have hc : ¬(c = ':') := hfree c (by simp)
    have hrest := ih (fun d hd => hfree d (by simp [hd]))
    show splitOnColon (c :: (cs ++ ':' :: l2)) = (c :: cs) :: splitOnColon l2
    simp only [splitOnColon, if_neg hc, hrest]

/-- Parsing `f"{n:02d}"` with Python `int` gives back `n`. -/
theorem pyInt_twoDigits {n : Nat} (hn : n < 100) : pyInt (twoDigits n) = some (n : Int) := by
  have g1 : n / 10 ≤ 9 := by omega
  have g2 : n % 10 ≤ 9 := by omega
  show pyInt [Char.ofNat (48 + n / 10), Char.ofNat (48 + n % 10)] = some (n : Int)
  simp only [pyInt]
  rw [if_neg (digit_ne_minus _ g1), if_neg (digit_ne_plus _ g1)]
  simp only [digitsVal, if_neg (List.cons_ne_nil _ _), digitsValGo, digitVal]
  rw [digit_toNat _ g1, digit_toNat _ g2]
  rw [if_pos (by omega : 48 ≤ 48 + n / 10 ∧ 48 + n / 10 ≤ 57),
    if_pos (by omega : 48 ≤ 48 + n % 10 ∧ 48 + n % 10 ≤ 57)]
  simp only [digitsValGo, Option.map_some]
  have hv : (0 * 10 + (48 + n / 10 - 48)) * 10 + (48 + n % 10 - 48) = n := by omega
  rw [hv]
  rfl

/-- Parsing a zero-padded time string yields its minute-of-day value. -/
theorem timeMins_hhmm {h m : Nat} (hh : h < 100) (hm : m < 100) :
    timeMins (some (hhmmStr h m)) = some ((h : Int) * 60 + (m : Int)) := by
  have hfree1 : ∀ c ∈ twoDigits h, c ≠ ':' := by
    intro c hc
    simp only [twoDigits, List.mem_cons, List.mem_singleton, List.not_mem_nil, or_false] at hc
    rcases hc with rfl | rfl
    · exact digit_ne_colon _ (by omega)
    · exact digit_ne_colon _ (by omega)
  have hfree2 : ∀ c ∈ twoDigits m, c ≠ ':' := by
    intro c hc
    simp only [twoDigits, List.mem_cons, List.mem_singleton, List.not_mem_nil, or_false] at hc
    rcases hc with rfl | rfl
    · exact digit_ne_colon _ (by omega)
    · exact digit_ne_colon _ (by omega)
  show (match splitOnColon (twoDigits h ++ ':' :: twoDigits m) with
    | p0 :: p1 :: _ =>
      match pyInt p0, pyInt p1 with
      | some hv, some mv => some (hv * 60 + mv)
      | _, _ => none
    | _ => none) = some ((h : Int) * 60 + (m : Int))
  rw [splitOnColon_mid _ _ hfree1, splitOnColon_no_colon _ hfree2]
  show (match pyInt (twoDigits h), pyInt (twoDigits m) with
    | some hv, some mv => some (hv * 60 + mv)
    | _, _ => none) = some ((h : Int) * 60 + (m : Int))
  rw [pyInt_twoDigits hh, pyInt_twoDigits hm]

/-! ## Characterisation of `find_next_bell` -/

/-- Events of weekday `d` as the scan sees them: the day's list when the key
is present, else no events. -/
def dayEvents (sched : Schedule) (d : Nat) : List BellEvent :=
  (dictGet sched (dayKey d)).getD []

/-- Well-formedness from the spec's data model: every event's `time` is a
zero-padded in-range `"HH:MM"` string. -/
def WF (sched : Schedule) : Prop :=
  ∀ p ∈ sched, ∀ e ∈ p.2, isHHMM (timeKey e) = true

instance : DecidablePred WF := fun sched =>
  inferInstanceAs (Decidable (∀ p ∈ sched, ∀ e ∈ p.2, isHHMM (timeKey e) = true))

/-- Parse-only well-formedness: every event has a `time` key whose value
splits on a colon into two integer-parseable fields. -/
def PW (sched : Schedule) : Prop :=
  ∀ p ∈ sched, ∀ e ∈ p.2, (timeMins e.time).isSome = true

instance : DecidablePred PW := fun sched =>
  inferInstanceAs (Decidable (∀ p ∈ sched, ∀ e ∈ p.2, (timeMins e.time).isSome = true))

theorem dictGet_mem : ∀ {sched : Schedule} {k : String} {v : List BellEvent},
    dictGet sched k = some v → (k, v) ∈ sched := by
  intro sched
  induction sched with
  | nil => intro k v h; exact absurd h (by simp [dictGet])
  | cons p rest ih =>
    intro k v h
    obtain ⟨pk, pv⟩ := p
    by_cases hk : pk = k
    · subst hk
      have h2 : some pv = some v := by simpa [dictGet] using h
      obtain rfl : pv = v := by injection h2
      exact List.mem_cons_self _ _
    · simp only [dictGet, if_neg hk] at h
      exact List.mem_cons_of_mem _ (ih h)

/-- A `WF` event has an in-range time and a parsed minute-of-day value. -/
theorem wf_time_parse {e : BellEvent} (hwf : isHHMM (timeKey e) = true) :
    ∃ h m, h < 24 ∧ m < 60 ∧ e.time = some (hhmmStr h m) ∧
      timeMins e.time = some ((h : Int) * 60 + (m : Int)) := by
  cases het : e.time with
  | none =>
    exfalso
    rw [timeKey, het] at hwf
    simp only [Option.getD] at hwf
    exact absurd hwf (by decide)
  | some s =>
    have hk : timeKey e = s := by rw [timeKey, het]; rfl
    rw [hk] at hwf
    obtain ⟨h, m, hh, hm, rfl⟩ := isHHMM_canon hwf
    exact ⟨h, m, hh, hm, rfl, timeMins_hhmm (by omega) (by omega)⟩

/-- On well-formed events, the sort order used by `sorted` agrees with
minute-of-day order. -/
theorem wf_le_iff {a b : BellEvent} (ha : isHHMM (timeKey a) = true)
    (hb : isHHMM (timeKey b) = true) {ma mb : Int}
    (hma : timeMins a.time = some ma) (hmb : timeMins b.time = some mb) :
    eventTimeLe a b ↔ ma ≤ mb := by
  obtain ⟨h1, m1, hh1, hm1, ht1, hp1⟩ := wf_time_parse ha
  obtain ⟨h2, m2, hh2, hm2, ht2, hp2⟩ := wf_time_parse hb
  rw [hp1] at hma
  rw [hp2] at hmb
  obtain rfl : ma = (h1 : Int) * 60 + m1 := by injection hma with h; exact h.symm
  obtain rfl : mb = (h2 : Int) * 60 + m2 := by injection hmb with h; exact h.symm
  have hk1 : timeKey a = hhmmStr h1 m1 := by rw [timeKey, ht1]; rfl
  have hk2 : timeKey b = hhmmStr h2 m2 := by rw [timeKey, ht2]; rfl
  rw [eventTimeLe, hk1, hk2, hhmm_clLe_iff (by omega) hm1 (by omega) hm2]
  omega

theorem scanSortedEvents_cons_bad {skip : Bool} {nowM : Nat} {e0 : BellEvent}
    {rest : List BellEvent} (htm : timeMins e0.time = none) :
    scanSortedEvents skip nowM (e0 :: rest) = none := by
  simp only [scanSortedEvents, htm]

theorem scanSortedEvents_cons_ok {skip : Bool} {nowM : Nat} {e0 : BellEvent}
    {rest : List BellEvent} {m : Int} (htm : timeMins e0.time = some m) :
    scanSortedEvents skip nowM (e0 :: rest) =
      if skip = true ∧ m ≤ (nowM : Int) then scanSortedEvents skip nowM rest
      else some (some e0) := by
  simp only [scanSortedEvents, htm]

theorem scanSortedEvents_mem {skip : Bool} {nowM : Nat} :
    ∀ {l : List BellEvent} {e : BellEvent},
    scanSortedEvents skip nowM l = some (some e) → e ∈ l := by
  intro l
  induction l with
  | nil => intro e h; exact absurd h (by simp [scanSortedEvents])
  | cons e0 rest ih =>
    intro e h
    cases htm : timeMins e0.time with
    | none => rw [scanSortedEvents_cons_bad htm] at h; exact absurd h (by simp)
    | some m =>
      rw [scanSortedEvents_cons_ok htm] at h
      by_cases hc : skip = true ∧ m ≤ (nowM : Int)
      · rw [if_pos hc] at h
        exact List.mem_cons_of_mem _ (ih h)
      · rw [if_neg hc] at h
        obtain rfl : e0 = e := by injection h with h2; injection h2
        exact List.mem_cons_self _ _

theorem scanSortedEvents_isSome {skip : Bool} {nowM : Nat} :
    ∀ {l : List BellEvent}, (∀ e ∈ l, (timeMins e.time).isSome = true) →
    (scanSortedEvents skip nowM l).isSome = true := by
  intro l
  induction l with
  | nil => intro _; rfl
  | cons e0 rest ih =>
    intro hp
    have h0 := hp e0 (List.mem_cons_self _ _)
    cases htm : timeMins e0.time with
    | none => rw [htm] at h0; exact absurd h0 (by simp)
    | some m =>
      rw [scanSortedEvents_cons_ok htm]
      by_cases hc : skip = true ∧ m ≤ (nowM : Int)
      · rw [if_pos hc]
        exact ih (fun e he => hp e (List.mem_cons_of_mem _ he))
      · rw [if_neg hc]; rfl

theorem scanSortedEvents_none {skip : Bool} {nowM : Nat} :
    ∀ {l : List BellEvent}, scanSortedEvents skip nowM l = some none →
    ∀ e ∈ l, ∀ m, timeMins e.time = some m → skip = true ∧ m ≤ (nowM : Int) := by
  intro l
  induction l with
  | nil => intro _ e he; exact absurd he (List.not_mem_nil e)
  | cons e0 rest ih =>
    intro h e he m hm
    cases htm : timeMins e0.time with
    | none => rw [scanSortedEvents_cons_bad htm] at h; exact absurd h (by simp)
    | some m0 =>
      rw [scanSortedEvents_cons_ok htm] at h
      by_cases hc : skip = true ∧ m0 ≤ (nowM : Int)
      · rw [if_pos hc] at h
        rcases List.mem_cons.mp he with rfl | he2
        · rw [htm] at hm
          obtain rfl : m0 = m := by injection hm
          exact hc
        · exact ih h e he2 m hm
      · rw [if_neg hc] at h
        exact absurd h (by simp)

theorem scanSortedEvents_found {skip : Bool} {nowM : Nat} :
    ∀ {l : List BellEvent} {e : BellEvent},
    l.Pairwise eventTimeLe → (∀ x ∈ l, isHHMM (timeKey x) = true) →
    scanSortedEvents skip nowM l = some (some e) →
    e ∈ l ∧ ∃ m, timeMins e.time = some m ∧ (skip = true → (nowM : Int) < m) ∧
      ∀ f ∈ l, ∀ mf, timeMins f.time = some mf → m ≤ mf ∨ (skip = true ∧ mf ≤ (nowM : Int)) := by
  intro l
  induction l with
  | nil => intro e _ _ h; exact absurd h (by simp [scanSortedEvents])
  | cons e0 rest ih =>
    intro e hsort hwf h
    cases htm : timeMins e0.time with
    | none => rw [scanSortedEvents_cons_bad htm] at h; exact absurd h (by simp)
    | some m0 =>
      rw [scanSortedEvents_cons_ok htm] at h
      by_cases hc : skip = true ∧ m0 ≤ (nowM : Int)
      · rw [if_pos hc] at h
        obtain ⟨hmem, m, hm, hq, hmin⟩ :=
          ih (List.Pairwise.of_cons hsort) (fun x hx => hwf x (List.mem_cons_of_mem _ hx)) h
        refine ⟨List.mem_cons_of_mem _ hmem, m, hm, hq, ?_⟩
        intro f hf mf hmf
        rcases List.mem_cons.mp hf with rfl | hf2
        · rw [htm] at hmf
          obtain rfl : m0 = mf := by injection hmf
          exact Or.inr hc
        · exact hmin f hf2 mf hmf
      · rw [if_neg hc] at h
        obtain rfl : e0 = e := by injection h with h2; injection h2
        refine ⟨List.mem_cons_self _ _, m0, htm, ?_, ?_⟩
        · intro hskip
          rcases not_and_or.mp hc with hbad | hlt
          · exact absurd hskip hbad
          · omega
        · intro f hf mf hmf
          rcases List.mem_cons.mp hf with rfl | hf2
          · rw [htm] at hmf
            obtain rfl : m0 = mf := by injection hmf
            exact Or.inl le_rfl
          · have hle : eventTimeLe e0 f := (List.pairwise_cons.mp hsort).1 f hf2
            have := (wf_le_iff (hwf e0 (List.mem_cons_self _ _))
              (hwf f (List.mem_cons_of_mem _ hf2)) htm hmf).mp hle
            exact Or.inl this

theorem findBellLoop_cons_nokey {sched : Schedule} {wd nowM off : Nat} {rest : List Nat}
    (hdg : dictGet sched (dayKey ((wd + off) % 7)) = none) :
    findBellLoop sched wd nowM (off :: rest) = findBellLoop sched wd nowM rest := by
  simp only [findBellLoop, hdg]

theorem findBellLoop_cons_emptyday {sched : Schedule} {wd nowM off : Nat} {rest : List Nat}
    (hdg : dictGet sched (dayKey ((wd + off) % 7)) = some []) :
    findBellLoop sched wd nowM (off :: rest) = findBellLoop sched wd nowM rest := by
  simp only [findBellLoop, hdg, if_pos]

theorem findBellLoop_cons_scan {sched : Schedule} {wd nowM off : Nat} {rest : List Nat}
    {evs : List BellEvent} (hdg : dictGet sched (dayKey ((wd + off) % 7)) = some evs)
    (hne : ¬(evs = [])) :
    findBellLoop sched wd nowM (off :: rest) =
      match scanSortedEvents (decide (off = 0)) nowM (List.insertionSort eventTimeLe evs) with
      | none => none
      | some none => findBellLoop sched wd nowM rest
      | some (some e) => some (some ((wd + off) % 7, e)) := by
  simp only [findBellLoop, hdg, if_neg hne]

/-- The events of a day with a present key are exactly the stored list. -/
theorem dayEvents_eq {sched : Schedule} {d : Nat} {evs : List BellEvent}
    (hdg : dictGet sched (dayKey d) = some evs) : dayEvents sched d = evs := by
  rw [dayEvents, hdg]; rfl

theorem dayEvents_nil {sched : Schedule} {d : Nat}
    (hdg : dictGet sched (dayKey d) = none) : dayEvents sched d = [] := by
  rw [dayEvents, hdg]; rfl

/-- All events of any day satisfy a schedule-wide per-event property. -/
theorem dayEvents_prop {P : BellEvent → Prop} {sched : Schedule}
    (hall : ∀ p ∈ sched, ∀ e ∈ p.2, P e) {d : Nat} :
    ∀ e ∈ dayEvents sched d, P e := by
  intro e he
  cases hdg : dictGet sched (dayKey d) with
  | none => rw [dayEvents_nil hdg] at he; exact absurd he (List.not_mem_nil e)
  | some evs =>
    rw [dayEvents_eq hdg] at he
    exact hall _ (dictGet_mem hdg) e he

theorem findBellLoop_isSome {sched : Schedule} {wd nowM : Nat} (hpw : PW sched) :
    ∀ offs : List Nat, (findBellLoop sched wd nowM offs).isSome = true := by
  intro offs
  induction offs with
  | nil => rfl
  | cons off rest ih =>
    cases hdg : dictGet sched (dayKey ((wd + off) % 7)) with
    | none => rw [findBellLoop_cons_nokey hdg]; exact ih
    | some evs =>
      by_cases hne : evs = []
      · subst hne
        rw [findBellLoop_cons_emptyday hdg]
        exact ih
      · rw [findBellLoop_cons_scan hdg hne]
        have hparse : ∀ e ∈ List.insertionSort eventTimeLe evs, (timeMins e.time).isSome = true := by
          intro e he
          have he2 : e ∈ evs := (List.mem_insertionSort eventTimeLe).mp he
          exact hpw _ (dictGet_mem hdg) e he2
        have hs := @scanSortedEvents_isSome (decide (off = 0)) nowM _ hparse
        cases hscan : scanSortedEvents (decide (off = 0)) nowM (List.insertionSort eventTimeLe evs) with
        | none => rw [hscan] at hs; exact absurd hs (by simp)
        | some o =>
          cases o with
          | none => exact ih
          | some e => rfl

theorem findBellLoop_none {sched : Schedule} {wd nowM : Nat} :
    ∀ {offs : List Nat}, findBellLoop sched wd nowM offs = some none →
    ∀ off ∈ offs, ∀ e ∈ dayEvents sched ((wd + off) % 7), ∀ m,
      timeMins e.time = some m → off = 0 ∧ m ≤ (nowM : Int) := by
  intro offs
  induction offs with
  | nil => intro _ off hoff; exact absurd hoff (List.not_mem_nil off)
  | cons off0 rest ih =>
    intro h off hoff e he m hm
    cases hdg : dictGet sched (dayKey ((wd + off0) % 7)) with
    | none =>
      rw [findBellLoop_cons_nokey hdg] at h
      rcases List.mem_cons.mp hoff with rfl | hoff2
      · rw [dayEvents_nil hdg] at he
        exact absurd he (List.not_mem_nil e)
      · exact ih h off hoff2 e he m hm
    | some evs =>
      by_cases hne : evs = []
      · subst hne
        rw [findBellLoop_cons_emptyday hdg] at h
        rcases List.mem_cons.mp hoff with rfl | hoff2
        · rw [dayEvents_eq hdg] at he
          exact absurd he (List.not_mem_nil e)
        · exact ih h off hoff2 e he m hm
      · rw [findBellLoop_cons_scan hdg hne] at h
        cases hscan : scanSortedEvents (decide (off0 = 0)) nowM (List.insertionSort eventTimeLe evs) with
        | none =>
          rw [hscan] at h
          exact absurd h (by simp)
        | some o =>
          cases o with
          | some e2 =>
            rw [hscan] at h
            have h2 : (some (some ((wd + off0) % 7, e2)) : Option (Option (Nat × BellEvent))) = some none := h
            exact absurd h2 (by simp)
          | none =>
            rw [hscan] at h
            have h2 : findBellLoop sched wd nowM rest = some none := h
            rcases List.mem_cons.mp hoff with rfl | hoff2
            · rw [dayEvents_eq hdg] at he
              have he3 : e ∈ List.insertionSort eventTimeLe evs :=
                (List.mem_insertionSort eventTimeLe).mpr he
              have := scanSortedEvents_none hscan e he3 m hm
              exact ⟨of_decide_eq_true this.1, this.2⟩
            · exact ih h2 off hoff2 e he m hm

theorem findBellLoop_mem {sched : Schedule} {wd nowM : Nat} :
    ∀ {offs : List Nat} {dayIdx : Nat} {e : BellEvent},
    findBellLoop sched wd nowM offs = some (some (dayIdx, e)) →
    e ∈ dayEvents sched dayIdx := by
  intro offs
  induction offs with
  | nil =>
    intro dayIdx e h
    exact absurd h (by simp [findBellLoop])
  | cons off0 rest ih =>
    intro dayIdx e h
    cases hdg : dictGet sched (dayKey ((wd + off0) % 7)) with
    | none =>
      rw [findBellLoop_cons_nokey hdg] at h
      exact ih h
    | some evs =>
      by_cases hne : evs = []
      · subst hne
        rw [findBellLoop_cons_emptyday hdg] at h
        exact ih h
      · rw [findBellLoop_cons_scan hdg hne] at h
        cases hscan : scanSortedEvents (decide (off0 = 0)) nowM (List.insertionSort eventTimeLe evs) with
        | none =>
          rw [hscan] at h
          exact absurd h (by simp)
        | some o =>
          cases o with
          | none =>
            rw [hscan] at h
            exact ih h
          | some e2 =>
            rw [hscan] at h
            have h2 : (some (some ((wd + off0) % 7, e2)) : Option (Option (Nat × BellEvent))) =
              some (some (dayIdx, e)) := h
            have hd : (wd + off0) % 7 = dayIdx ∧ e2 = e := by
              have := Option.some_inj.mp (Option.some_inj.mp h2)
              exact ⟨congrArg Prod.fst this, congrArg Prod.snd this⟩
            obtain ⟨rfl, rfl⟩ := hd
            rw [dayEvents_eq hdg]
            exact (List.mem_insertionSort eventTimeLe).mp (scanSortedEvents_mem hscan)

theorem findBellLoop_found {sched : Schedule} {wd nowM : Nat} (hwf : WF sched) :
    ∀ {offs : List Nat} {dayIdx : Nat} {e : BellEvent},
    findBellLoop sched wd nowM offs = some (some (dayIdx, e)) →
    ∃ offs1 off offs2, offs = offs1 ++ off :: offs2 ∧ dayIdx = (wd + off) % 7 ∧
      (∀ off2 ∈ offs1, ∀ f ∈ dayEvents sched ((wd + off2) % 7), ∀ mf,
        timeMins f.time = some mf → off2 = 0 ∧ mf ≤ (nowM : Int)) ∧
      e ∈ dayEvents sched dayIdx ∧
      ∃ m, timeMins e.time = some m ∧ (off = 0 → (nowM : Int) < m) ∧
        ∀ f ∈ dayEvents sched dayIdx, ∀ mf, timeMins f.time = some mf →
          m ≤ mf ∨ (off = 0 ∧ mf ≤ (nowM : Int)) := by
  intro offs
  induction offs with
  | nil =>
    intro dayIdx e h
    exact absurd h (by simp [findBellLoop])
  | cons off0 rest ih =>
    intro dayIdx e h
    cases hdg : dictGet sched (dayKey ((wd + off0) % 7)) with
    | none =>
      rw [findBellLoop_cons_nokey hdg] at h
      obtain ⟨offs1, off, offs2, heq, hday, hpre, hmem, hm⟩ := ih h
      refine ⟨off0 :: offs1, off, offs2, by rw [heq]; rfl, hday, ?_, hmem, hm⟩
      intro off2 hoff2 f hf mf hmf
      rcases List.mem_cons.mp hoff2 with rfl | hoff3
      · rw [dayEvents_nil hdg] at hf
        exact absurd hf (List.not_mem_nil f)
      · exact hpre off2 hoff3 f hf mf hmf
    | some evs =>
      by_cases hne : evs = []
      · subst hne
        rw [findBellLoop_cons_emptyday hdg] at h
        obtain ⟨offs1, off, offs2, heq, hday, hpre, hmem, hm⟩ := ih h
        refine ⟨off0 :: offs1, off, offs2, by rw [heq]; rfl, hday, ?_, hmem, hm⟩
        intro off2 hoff2 f hf mf hmf
        rcases List.mem_cons.mp hoff2 with rfl | hoff3
        · rw [dayEvents_eq hdg] at hf
          exact absurd hf (List.not_mem_nil f)
        · exact hpre off2 hoff3 f hf mf hmf
      · rw [findBellLoop_cons_scan hdg hne] at h
        cases hscan : scanSortedEvents (decide (off0 = 0)) nowM (List.insertionSort eventTimeLe evs) with
        | none =>
          rw [hscan] at h
          exact absurd h (by simp)
        | some o =>
          cases o with
          | none =>
            rw [hscan] at h
            have h2 : findBellLoop sched wd nowM rest = some (some (dayIdx, e)) := h
            obtain ⟨offs1, off, offs2, heq, hday, hpre, hmem, hm⟩ := ih h2
            refine ⟨off0 :: offs1, off, offs2, by rw [heq]; rfl, hday, ?_, hmem, hm⟩
            intro off2 hoff2 f hf mf hmf
            rcases List.mem_cons.mp hoff2 with rfl | hoff3
            · rw [dayEvents_eq hdg] at hf
              have hf2 : f ∈ List.insertionSort eventTimeLe evs :=
                (List.mem_insertionSort eventTimeLe).mpr hf
              have := scanSortedEvents_none hscan f hf2 mf hmf
              exact ⟨of_decide_eq_true this.1, this.2⟩
            · exact hpre off2 hoff3 f hf mf hmf
          | some e2 =>
            rw [hscan] at h
            have h2 : (some (some ((wd + off0) % 7, e2)) : Option (Option (Nat × BellEvent))) =
              some (some (dayIdx, e)) := h
            have hd : (wd + off0) % 7 = dayIdx ∧ e2 = e := by
              have := Option.some_inj.mp (Option.some_inj.mp h2)
              exact ⟨congrArg Prod.fst this, congrArg Prod.snd this⟩
            obtain ⟨rfl, rfl⟩ := hd
            have hsorted : (List.insertionSort eventTimeLe evs).Pairwise eventTimeLe :=
              List.sorted_insertionSort eventTimeLe evs
            have hwfs : ∀ x ∈ List.insertionSort eventTimeLe evs, isHHMM (timeKey x) = true := by
              intro x hx
              exact @dayEvents_prop _ _ hwf ((wd + off0) % 7)
                x (by rw [dayEvents_eq hdg]; exact (List.mem_insertionSort eventTimeLe).mp hx)
            obtain ⟨hmem, m, hmval, hq, hmin⟩ := scanSortedEvents_found hsorted hwfs hscan
            refine ⟨[], off0, rest, rfl, rfl, by simp, ?_, m, hmval, ?_, ?_⟩
            · rw [dayEvents_eq hdg]
              exact (List.mem_insertionSort eventTimeLe).mp hmem
            · intro h0
              exact hq (decide_eq_true h0)
            · intro f hf mf hmf
              rw [dayEvents_eq hdg] at hf
              have hf2 : f ∈ List.insertionSort eventTimeLe evs :=
                (List.mem_insertionSort eventTimeLe).mpr hf
              rcases hmin f hf2 mf hmf with h3 | ⟨h3a, h3b⟩
              · exact Or.inl h3
              · exact Or.inr ⟨of_decide_eq_true h3a, h3b⟩

theorem find_next_bell_nil {now : LocalTime} : find_next_bell [] now = some (none, []) := rfl

theorem find_next_bell_eq {sched : Schedule} {now : LocalTime} (hne : ¬(sched = [])) :
    find_next_bell sched now =
      match findBellLoop sched now.weekday (nowMins now) [0, 1, 2, 3, 4, 5, 6] with
      | none => none
      | some none => some (none, sched)
      | some (some (dayIdx, e)) =>
        match dictGet sched (dayKey dayIdx) with
        | none => some (some { e with day_name := some (DAYS_OF_WEEK.getD dayIdx "") }, sched)
        | some evs =>
          some (some { e with day_name := some (DAYS_OF_WEEK.getD dayIdx "") },
            dictSet sched (dayKey dayIdx)
              (evs.replace e { e with day_name := some (DAYS_OF_WEEK.getD dayIdx "") })) := by
  simp only [find_next_bell, if_neg hne]

theorem find_next_bell_raise {sched : Schedule} {now : LocalTime} (hne : ¬(sched = []))
    (hloop : findBellLoop sched now.weekday (nowMins now) [0, 1, 2, 3, 4, 5, 6] = none) :
    find_next_bell sched now = none := by
  rw [find_next_bell_eq hne, hloop]

theorem find_next_bell_nofind {sched : Schedule} {now : LocalTime} (hne : ¬(sched = []))
    (hloop : findBellLoop sched now.weekday (nowMins now) [0, 1, 2, 3, 4, 5, 6] = some none) :
    find_next_bell sched now = some (none, sched) := by
  rw [find_next_bell_eq hne, hloop]

theorem find_next_bell_found {sched : Schedule} {now : LocalTime} {dayIdx : Nat} {e : BellEvent}
    (hne : ¬(sched = []))
    (hloop : findBellLoop sched now.weekday (nowMins now) [0, 1, 2, 3, 4, 5, 6] =
      some (some (dayIdx, e)))
    {evs : List BellEvent} (hdg : dictGet sched (dayKey dayIdx) = some evs) :
    find_next_bell sched now =
      some (some { e with day_name := some (DAYS_OF_WEEK.getD dayIdx "") },
        dictSet sched (dayKey dayIdx)
          (evs.replace e { e with day_name := some (DAYS_OF_WEEK.getD dayIdx "") })) := by
  rw [find_next_bell_eq hne, hloop]
  show (match dictGet sched (dayKey dayIdx) with
    | none => some (some { e with day_name := some (DAYS_OF_WEEK.getD dayIdx "") }, sched)
    | some evs2 =>
      some (some { e with day_name := some (DAYS_OF_WEEK.getD dayIdx "") },
        dictSet sched (dayKey dayIdx)
          (evs2.replace e { e with day_name := some (DAYS_OF_WEEK.getD dayIdx "") }))) = _
  rw [hdg]

theorem find_next_bell_found_nokey {sched : Schedule} {now : LocalTime} {dayIdx : Nat}
    {e : BellEvent} (hne : ¬(sched = []))
    (hloop : findBellLoop sched now.weekday (nowMins now) [0, 1, 2, 3, 4, 5, 6] =
      some (some (dayIdx, e)))
    (hdg : dictGet sched (dayKey dayIdx) = none) :
    find_next_bell sched now =
      some (some { e with day_name := some (DAYS_OF_WEEK.getD dayIdx "") }, sched) := by
  rw [find_next_bell_eq hne, hloop]
  show (match dictGet sched (dayKey dayIdx) with
    | none => some (some { e with day_name := some (DAYS_OF_WEEK.getD dayIdx "") }, sched)
    | some evs2 =>
      some (some { e with day_name := some (DAYS_OF_WEEK.getD dayIdx "") },
        dictSet sched (dayKey dayIdx)
          (evs2.replace e { e with day_name := some (DAYS_OF_WEEK.getD dayIdx "") }))) = _
  rw [hdg]

theorem mem_offsets7 : ∀ k : Nat, k < 7 → k ∈ ([0, 1, 2, 3, 4, 5, 6] : List Nat) := by decide

theorem offsets7_lt : ∀ k ∈ ([0, 1, 2, 3, 4, 5, 6] : List Nat), k < 7 := by decide

theorem offsets7_sorted : ([0, 1, 2, 3, 4, 5, 6] : List Nat).Pairwise (· < ·) := by decide

/-- The totality half of the parse-safety claim: whenever every event in the
schedule has a parseable time, `find_next_bell` returns without raising. -/
theorem find_next_bell_isSome {sched : Schedule} {now : LocalTime} (hpw : PW sched) :
    (find_next_bell sched now).isSome = true := by
  by_cases hne : sched = []
  · subst hne
    rw [find_next_bell_nil]
    rfl
  · have hl := @findBellLoop_isSome sched now.weekday (nowMins now) hpw [0, 1, 2, 3, 4, 5, 6]
    cases hloop : findBellLoop sched now.weekday (nowMins now) [0, 1, 2, 3, 4, 5, 6] with
    | none => rw [hloop] at hl; exact absurd hl (by simp)
    | some o =>
      cases o with
      | none => rw [find_next_bell_nofind hne hloop]; rfl
      | some p =>
        obtain ⟨dayIdx, e⟩ := p
        cases hdg : dictGet sched (dayKey dayIdx) with
        | none => rw [find_next_bell_found_nokey hne hloop hdg]; rfl
        | some evs => rw [find_next_bell_found hne hloop hdg]; rfl

/-- Spec-side predicate (from §4.4/§8 of the spec): the schedule holds no
strictly-future event inside the 7-day lookahead window — every parsed event
in the window lies on today (offset 0) at or before the current minute. -/
def NoFutureEvent (sched : Schedule) (now : LocalTime) : Prop :=
  ∀ off < 7, ∀ e ∈ dayEvents sched ((now.weekday + off) % 7), ∀ m,
    timeMins e.time = some m → off = 0 ∧ m ≤ (nowMins now : Int)

/-- Spec-side predicate (from §4.4/§8 of the spec): `nb` is a qualifying event
of the 7-day window — strictly future when on today's offset — annotated with
its weekday name, and its `(day offset, minute-of-day)` pair is
lexicographically least among all qualifying events of the window. -/
def IsEarliestFuture (sched : Schedule) (now : LocalTime) (nb : BellEvent) : Prop :=
  ∃ off, off < 7 ∧ ∃ orig ∈ dayEvents sched ((now.weekday + off) % 7), ∃ m,
    timeMins orig.time = some m ∧ (off = 0 → (nowMins now : Int) < m) ∧
    nb = { orig with day_name := some (DAYS_OF_WEEK.getD ((now.weekday + off) % 7) "") } ∧
    ∀ off2, off2 < 7 → ∀ f ∈ dayEvents sched ((now.weekday + off2) % 7), ∀ mf,
      timeMins f.time = some mf → (off2 = 0 → (nowMins now : Int) < mf) →
      off < off2 ∨ (off = off2 ∧ m ≤ mf)

/-- Full correctness of `find_next_bell` on well-formed schedules: it never
raises, and it returns either the empty result (exactly when the window holds
no strictly-future event) or the earliest strictly-future event of the 7-day
window, annotated with its weekday name. -/
theorem find_next_bell_correct (sched : Schedule) (now : LocalTime) (hwf : WF sched) :
    ∃ nb sched2, find_next_bell sched now = some (nb, sched2) ∧
      ((nb = none ∧ NoFutureEvent sched now) ∨
        ∃ e, nb = some e ∧ IsEarliestFuture sched now e) := by
  have hpw : PW sched := by
    intro p hp e he
    obtain ⟨h, m, _, _, _, hparse⟩ := wf_time_parse (hwf p hp e he)
    rw [hparse]
    rfl
  by_cases hnil : sched = []
  · subst hnil
    refine ⟨none, [], find_next_bell_nil, Or.inl ⟨rfl, ?_⟩⟩
    intro off _ e he
    rw [show dayEvents [] ((now.weekday + off) % 7) = [] from rfl] at he
    exact absurd he (List.not_mem_nil e)
  · have hl := @findBellLoop_isSome sched now.weekday (nowMins now) hpw [0, 1, 2, 3, 4, 5, 6]
    cases hloop : findBellLoop sched now.weekday (nowMins now) [0, 1, 2, 3, 4, 5, 6] with
    | none => rw [hloop] at hl; exact absurd hl (by simp)
    | some o =>
      cases o with
      | none =>
        refine ⟨none, sched, find_next_bell_nofind hnil hloop, Or.inl ⟨rfl, ?_⟩⟩
        intro off hoff e he m hm
        exact findBellLoop_none hloop off (mem_offsets7 off hoff) e he m hm
      | some p =>
        obtain ⟨dayIdx, e⟩ := p
        obtain ⟨offs1, off, offs2, heq, hday, hpre, hmem, m, hmval, hq, hmin⟩ :=
          findBellLoop_found hwf hloop
        have hoffmem : off ∈ ([0, 1, 2, 3, 4, 5, 6] : List Nat) := by
          rw [heq]
          exact List.mem_append_right _ (List.mem_cons_self _ _)
        have hofflt : off < 7 := offsets7_lt off hoffmem
        have hsplit := offsets7_sorted
        rw [heq] at hsplit
        obtain ⟨hp1, hp2, hcross⟩ := List.pairwise_append.mp hsplit
        have hofftail : ∀ x ∈ offs2, off < x := (List.pairwise_cons.mp hp2).1
        cases hdg : dictGet sched (dayKey dayIdx) with
        | none =>
          exfalso
          rw [dayEvents_nil hdg] at hmem
          exact absurd hmem (List.not_mem_nil e)
        | some evs =>
          refine ⟨_, _, find_next_bell_found hnil hloop hdg, Or.inr ⟨_, rfl, ?_⟩⟩
          refine ⟨off, hofflt, e, by rw [← hday]; exact hmem, m, hmval, hq, by rw [hday], ?_⟩
          intro off2 hoff2 f hf mf hmf hqual
          have hoff2mem : off2 ∈ ([0, 1, 2, 3, 4, 5, 6] : List Nat) := mem_offsets7 off2 hoff2
          rw [heq] at hoff2mem
          rcases List.mem_append.mp hoff2mem with hin1 | hin2
          · exfalso
            obtain ⟨h0, hle⟩ := hpre off2 hin1 f hf mf hmf
            have := hqual h0
            omega
          · rcases List.mem_cons.mp hin2 with rfl | hin3
            · rcases hmin f (by rw [hday]; exact hf) mf hmf with h3 | ⟨h3a, h3b⟩
              · exact Or.inr ⟨rfl, h3⟩
              · exfalso
                have := hqual h3a
                omega
            · exact Or.inl (hofftail off2 hin3)

/-- State delta of `find_next_bell`: on a non-raising run the schedule is
either returned unchanged (empty result) or changed in exactly one place —
the selected event gains a `day_name` key; every other field and every other
event is untouched. -/
theorem find_next_bell_delta {sched : Schedule} {now : LocalTime} {nb : Option BellEvent}
    {sched2 : Schedule} (h : find_next_bell sched now = some (nb, sched2)) :
    (nb = none ∧ sched2 = sched) ∨
    ∃ dayIdx evs orig, dictGet sched (dayKey dayIdx) = some evs ∧ orig ∈ evs ∧
      nb = some { orig with day_name := some (DAYS_OF_WEEK.getD dayIdx "") } ∧
      sched2 = dictSet sched (dayKey dayIdx)
        (evs.replace orig { orig with day_name := some (DAYS_OF_WEEK.getD dayIdx "") }) := by
  by_cases hnil : sched = []
  · subst hnil
    rw [find_next_bell_nil] at h
    obtain ⟨h1, h2⟩ := Prod.mk.injEq _ _ _ _ ▸ Option.some_inj.mp h
    exact Or.inl ⟨h1.symm, h2.symm⟩
  · cases hloop : findBellLoop sched now.weekday (nowMins now) [0, 1, 2, 3, 4, 5, 6] with
    | none =>
      rw [find_next_bell_raise hnil hloop] at h
      exact absurd h (by simp)
    | some o =>
      cases o with
      | none =>
        rw [find_next_bell_nofind hnil hloop] at h
        obtain ⟨h1, h2⟩ := Prod.mk.injEq _ _ _ _ ▸ Option.some_inj.mp h
        exact Or.inl ⟨h1.symm, h2.symm⟩
      | some p =>
        obtain ⟨dayIdx, e⟩ := p
        have hmem : e ∈ dayEvents sched dayIdx := findBellLoop_mem hloop
        cases hdg : dictGet sched (dayKey dayIdx) with
        | none =>
          exfalso
          rw [dayEvents_nil hdg] at hmem
          exact absurd hmem (List.not_mem_nil e)
        | some evs =>
          rw [find_next_bell_found hnil hloop hdg] at h
          obtain ⟨h1, h2⟩ := Prod.mk.injEq _ _ _ _ ▸ Option.some_inj.mp h
          refine Or.inr ⟨dayIdx, evs, e, hdg, ?_, h1.symm, h2.symm⟩
          rw [dayEvents_eq hdg] at hmem
          exact hmem

/-! ## Concrete instances for the `find_next_bell` claims -/

/-- Concrete one-event schedule taken from §8 of the spec:
`{"0":[{"time":"08:30","bellname":"Period1","relay":1,"belllength":2}]}`. -/
def exSchedule : Schedule :=
  [("0", [{ time := some "08:30", bellname := some "Period1", relay := some 1,
            belllength := some 2, day_name := none }])]

/-- Monday 08:29, the local time of the §8 example. -/
def exNow : LocalTime := ⟨8, 29, 0⟩

/-- The §8 example's event as annotated by `find_next_bell`. -/
def exAnnotated : BellEvent :=
  { time := some "08:30", bellname := some "Period1", relay := some 1,
    belllength := some 2, day_name := some "Mon" }

/-- The §8 example's schedule after `find_next_bell` has run: the stored event
has gained the `day_name` key. -/
def exMutated : Schedule := [("0", [exAnnotated])]

/-- Schedule holding an event with no `time` key. -/
def badSchedule : Schedule :=
  [("0", [{ time := none, bellname := some "NoTime", relay := some 1,
            belllength := none, day_name := none }])]

/-- Any local time for the raising run. -/
def badNow : LocalTime := ⟨8, 0, 0⟩

/-- C1: for every schedule (well-formed per the data model: zero-padded
in-range `"HH:MM"` times) and every local time, `find_next_bell` — which
scans offsets 0..6 from today's weekday, scans each non-empty day in
ascending time order, and on offset 0 skips events at or before the current
minute — returns without error, and its result is either the empty result,
exactly when no strictly-future event exists in the 7-day window, or the
earliest strictly-future event of the window (lowest offset, then lowest
minute-of-day), annotated with its weekday name. -/
theorem C1_next_bell_resolution (sched : Schedule) (now : LocalTime) (hwf : WF sched) :
    ∃ nb sched2, find_next_bell sched now = some (nb, sched2) ∧
      ((nb = none ∧ NoFutureEvent sched now) ∨
        ∃ e, nb = some e ∧ IsEarliestFuture sched now e) :=
  find_next_bell_correct sched now hwf

/-- C1 witness: the resolution theorem applied to the §8 example (Monday
08:29 against a Monday 08:30 bell). -/
theorem C1_next_bell_resolution_witness :
    WF exSchedule ∧
      (∃ nb sched2, find_next_bell exSchedule exNow = some (nb, sched2) ∧
        ((nb = none ∧ NoFutureEvent exSchedule exNow) ∨
          ∃ e, nb = some e ∧ IsEarliestFuture exSchedule exNow e)) :=
  ⟨by decide, C1_next_bell_resolution exSchedule exNow (by decide)⟩

/-- C9 counterexample: events are not immutable — running next-bell
resolution on the §8 schedule writes a `day_name` key into the event object
stored in the schedule, so the in-memory schedule afterwards differs from the
ingested one. -/
theorem C9_event_mutated_by_resolution :
    find_next_bell exSchedule exNow = some (some exAnnotated, exMutated) ∧
      exMutated ≠ exSchedule := by decide

/-- C9 amended: the only mutation `find_next_bell` performs on the schedule
is adding the `day_name` annotation to the single selected event; every other
field of that event, every other event, and every other day are unchanged
(and when the result is empty the schedule is unchanged). -/
theorem C9_mutation_only_day_name (sched : Schedule) (now : LocalTime)
    (nb : Option BellEvent) (sched2 : Schedule)
    (h : find_next_bell sched now = some (nb, sched2)) :
    (nb = none ∧ sched2 = sched) ∨
    ∃ dayIdx evs orig, dictGet sched (dayKey dayIdx) = some evs ∧ orig ∈ evs ∧
      nb = some { orig with day_name := some (DAYS_OF_WEEK.getD dayIdx "") } ∧
      sched2 = dictSet sched (dayKey dayIdx)
        (evs.replace orig { orig with day_name := some (DAYS_OF_WEEK.getD dayIdx "") }) :=
  find_next_bell_delta h

/-- C9 witness: the amended mutation theorem applied to the §8 example. -/
theorem C9_mutation_only_day_name_witness :
    find_next_bell exSchedule exNow = some (some exAnnotated, exMutated) ∧
      ((some exAnnotated = none ∧ exMutated = exSchedule) ∨
        ∃ dayIdx evs orig, dictGet exSchedule (dayKey dayIdx) = some evs ∧ orig ∈ evs ∧
          some exAnnotated = some { orig with day_name := some (DAYS_OF_WEEK.getD dayIdx "") } ∧
          exMutated = dictSet exSchedule (dayKey dayIdx)
            (evs.replace orig { orig with day_name := some (DAYS_OF_WEEK.getD dayIdx "") })) :=
  ⟨by decide,
    C9_mutation_only_day_name exSchedule exNow (some exAnnotated) exMutated (by decide)⟩

/-- C10: next-bell resolution is total exactly under a parseability
precondition — when every event of the schedule has a `time` key splitting on
a colon into two integer-parseable fields, `find_next_bell` returns without
error; and on a schedule holding an event with no `time` key it raises
an uncaught exception instead of returning. -/
theorem C10_parse_safety :
    (∀ sched now, PW sched → (find_next_bell sched now).isSome = true) ∧
      find_next_bell badSchedule badNow = none :=
  ⟨fun _ _ hpw => find_next_bell_isSome hpw, by decide⟩

/-- C10 witness: totality applied to the parseable §8 schedule, plus the
concrete raising run. -/
theorem C10_parse_safety_witness :
    PW exSchedule ∧ (find_next_bell exSchedule exNow).isSome = true ∧
      find_next_bell badSchedule badNow = none :=
  ⟨by decide, C10_parse_safety.1 exSchedule exNow (by decide), C10_parse_safety.2⟩

/-! ## `fetch_manifest_and_schedule` (lines 372-404 of `main.py`) -/

/-- A fetched manifest JSON object: the two keys `main.py` reads, each
`none` when absent from the document.  `schedules` keeps document order. -/
structure RawManifest where
  schedules : Option (List (String × String))
  base_url : Option String
  deriving DecidableEq, Repr

/-- The global state `fetch_manifest_and_schedule` can read or write:
in-memory `schedule`, `next_bell_event`, `schedule_manifest` and
`active_schedule_name`, plus the two persisted files it writes through
`save_schedule_to_cache` (`schedule.json`) and `save_active_schedule_name`
(`active_schedule.txt`).  Persisted-file contents are `none` until first
written. -/
structure FetchState where
  schedule : Schedule
  next_bell_event : Option BellEvent
  schedule_manifest : RawManifest
  active_schedule_name : String
  cache : Option Schedule
  persisted_active : Option String
  deriving DecidableEq, Repr

/-- Lines 113-121 of `main.py`: set the global and persist it (write errors
are caught and only logged, so the transition always succeeds). -/
def save_active_schedule_name (st : FetchState) (name : String) : FetchState :=
  { st with active_schedule_name := name, persisted_active := some name }

/-- Python `d[k]` on the manifest's schedules dict. -/
def manGet : List (String × String) → String → Option String
  | [], _ => none
  | (k, v) :: rest, key => if k = key then some v else manGet rest key

/-- Python `name in d` on the manifest's schedules dict. -/
def keysContains (l : List (String × String)) (k : String) : Bool :=
  (l.map Prod.fst).contains k

/-- Second half of the fetch (lines 389-404): resolve the schedule URL from
the already-validated manifest data, download, and on a truthy (non-empty)
document replace the schedule, persist the cache and recompute the next
bell.  The `Option Bool` outcome is the Python return value, `none` when an
exception escapes (a parse error inside `find_next_bell`).  On every failure
return the state is unchanged. -/
def fetchSchedulePart (st : FetchState) (now : LocalTime) (baseUrl : String)
    (schs : List (String × String)) (name : String)
    (httpGet : String → Option Schedule) : FetchState × Option Bool :=
  match httpGet (baseUrl ++ (manGet schs name).getD "") with
  | none => (st, some false)
  | some ns =>
    if ns = [] then (st, some false)
    else
      let st2 := { st with schedule := ns, cache := some ns }
      match find_next_bell ns now with
      | none => (st2, none)
      | some (nb, ns2) => ({ st2 with schedule := ns2, next_bell_event := nb }, some true)

/-- Embedding of `fetch_manifest_and_schedule` (lines 372-404 of `main.py`).
`manifestResp` is the result of `https_get_json(SCHEDULE_MANIFEST_URL)`
(`none` for an unreachable or unparseable document) and `httpGet` answers the
schedule-document request by URL.  Mirrors the source exactly: the manifest
guard of line 378 (falsy result or either key absent) returns `False` with no
mutation; a valid manifest is stored into `schedule_manifest` immediately
(line 382); a missing active name selects `next(iter(schedules))` — raising
`StopIteration`, modelled as outcome `none`, when the schedules dict is empty
— and persists it (lines 385-387); then the schedule document is fetched. -/
def fetch_manifest_and_schedule (st : FetchState) (now : LocalTime)
    (manifestResp : Option RawManifest) (httpGet : String → Option Schedule) :
    FetchState × Option Bool :=
  match manifestResp with
  | none => (st, some false)
  | some m =>
    match m.schedules, m.base_url with
    | some schs, some baseUrl =>
      let st1 := { st with schedule_manifest := m }
      if keysContains schs st1.active_schedule_name then
        fetchSchedulePart st1 now baseUrl schs st1.active_schedule_name httpGet
      else
        match schs with
        | [] => (st1, none)
        | (n, _) :: _ =>
          fetchSchedulePart (save_active_schedule_name st1 n) now baseUrl schs n httpGet
    | _, _ => (st, some false)

/-- The name whose schedule document the fetch downloads (lines 385-389):
the active name when the manifest still lists it, else the manifest's first
entry. -/
def fetchTargetName (st : FetchState) (schs : List (String × String)) : String :=
  if keysContains schs st.active_schedule_name then st.active_schedule_name
  else ((schs.head?.map Prod.fst).getD "")

/-- The URL the fetch downloads from (line 390): `base_url + filename`. -/
def fetchTargetUrl (st : FetchState) (schs : List (String × String)) (b : String) : String :=
  b ++ (manGet schs (fetchTargetName st schs)).getD ""

theorem fetchSchedulePart_httpNone {st : FetchState} {now : LocalTime} {baseUrl : String}
    {schs : List (String × String)} {name : String} {httpGet : String → Option Schedule}
    (h : httpGet (baseUrl ++ (manGet schs name).getD "") = none) :
    fetchSchedulePart st now baseUrl schs name httpGet = (st, some false) := by
  simp only [fetchSchedulePart, h]

theorem fetchSchedulePart_httpEmpty {st : FetchState} {now : LocalTime} {baseUrl : String}
    {schs : List (String × String)} {name : String} {httpGet : String → Option Schedule}
    (h : httpGet (baseUrl ++ (manGet schs name).getD "") = some []) :
    fetchSchedulePart st now baseUrl schs name httpGet = (st, some false) := by
  simp only [fetchSchedulePart, h, if_pos]

theorem fetchSchedulePart_ok {st : FetchState} {now : LocalTime} {baseUrl : String}
    {schs : List (String × String)} {name : String} {httpGet : String → Option Schedule}
    {ns : Schedule} (h : httpGet (baseUrl ++ (manGet schs name).getD "") = some ns)
    (hne : ¬(ns = [])) {nb : Option BellEvent} {ns2 : Schedule}
    (hfnb : find_next_bell ns now = some (nb, ns2)) :
    fetchSchedulePart st now baseUrl schs name httpGet =
      ({ st with schedule := ns2, cache := some ns, next_bell_event := nb }, some true) := by
  simp only [fetchSchedulePart, h, if_neg hne, hfnb]

theorem fetchSchedulePart_raise {st : FetchState} {now : LocalTime} {baseUrl : String}
    {schs : List (String × String)} {name : String} {httpGet : String → Option Schedule}
    {ns : Schedule} (h : httpGet (baseUrl ++ (manGet schs name).getD "") = some ns)
    (hne : ¬(ns = [])) (hfnb : find_next_bell ns now = none) :
    fetchSchedulePart st now baseUrl schs name httpGet =
      ({ st with schedule := ns, cache := some ns }, none) := by
  simp only [fetchSchedulePart, h, if_neg hne, hfnb]

theorem fetch_manifest_none {st : FetchState} {now : LocalTime}
    {httpGet : String → Option Schedule} :
    fetch_manifest_and_schedule st now none httpGet = (st, some false) := rfl

theorem fetch_manifest_invalid {st : FetchState} {now : LocalTime} {m : RawManifest}
    {httpGet : String → Option Schedule}
    (hm : m.schedules = none ∨ m.base_url = none) :
    fetch_manifest_and_schedule st now (some m) httpGet = (st, some false) := by
  obtain ⟨ms, mb⟩ := m
  rcases hm with hm | hm
  · obtain rfl : ms = none := hm
    cases mb <;> rfl
  · obtain rfl : mb = none := hm
    cases ms <;> rfl

theorem fetch_manifest_keep {st : FetchState} {now : LocalTime} {m : RawManifest}
    {schs : List (String × String)} {b : String} {httpGet : String → Option Schedule}
    (hs : m.schedules = some schs) (hb : m.base_url = some b)
    (hk : keysContains schs st.active_schedule_name = true) :
    fetch_manifest_and_schedule st now (some m) httpGet =
      fetchSchedulePart { st with schedule_manifest := m } now b schs
        st.active_schedule_name httpGet := by
  simp only [fetch_manifest_and_schedule, hs, hb, hk, if_pos]

theorem fetch_manifest_emptymap {st : FetchState} {now : LocalTime} {m : RawManifest}
    {b : String} {httpGet : String → Option Schedule}
    (hs : m.schedules = some []) (hb : m.base_url = some b)
    (hk : keysContains [] st.active_schedule_name = false) :
    fetch_manifest_and_schedule st now (some m) httpGet =
      ({ st with schedule_manifest := m }, none) := by
  have hk2 : ¬(keysContains [] st.active_schedule_name = true) := by
    rw [hk]
    simp
  simp only [fetch_manifest_and_schedule, hs, hb, if_neg hk2]

theorem fetch_manifest_switch {st : FetchState} {now : LocalTime} {m : RawManifest}
    {n f : String} {rest : List (String × String)} {b : String}
    {httpGet : String → Option Schedule}
    (hs : m.schedules = some ((n, f) :: rest)) (hb : m.base_url = some b)
    (hk : keysContains ((n, f) :: rest) st.active_schedule_name = false) :
    fetch_manifest_and_schedule st now (some m) httpGet =
      fetchSchedulePart (save_active_schedule_name { st with schedule_manifest := m } n)
        now b ((n, f) :: rest) n httpGet := by
  have hk2 : ¬(keysContains ((n, f) :: rest) st.active_schedule_name = true) := by
    rw [hk]
    simp
  simp only [fetch_manifest_and_schedule, hs, hb, if_neg hk2]

/-- On every failing outcome the schedule-download half returns its input
state unchanged. -/
theorem fetchSchedulePart_fail_id {st : FetchState} {now : LocalTime} {baseUrl : String}
    {schs : List (String × String)} {name : String} {httpGet : String → Option Schedule}
    (h : (fetchSchedulePart st now baseUrl schs name httpGet).2 = some false) :
    (fetchSchedulePart st now baseUrl schs name httpGet).1 = st := by
  cases hh : httpGet (baseUrl ++ (manGet schs name).getD "") with
  | none => rw [fetchSchedulePart_httpNone hh]
  | some ns =>
    by_cases hne : ns = []
    · subst hne
      rw [fetchSchedulePart_httpEmpty hh]
    · cases hfnb : find_next_bell ns now with
      | none =>
        rw [fetchSchedulePart_raise hh hne hfnb] at h
        exact absurd h (by simp)
      | some p =>
        obtain ⟨nb, ns2⟩ := p
        rw [fetchSchedulePart_ok hh hne hfnb] at h
        exact absurd h (by simp)

/-- The schedule-download half never touches the active name, its persisted
copy, or the stored manifest. -/
theorem fetchSchedulePart_names (st : FetchState) (now : LocalTime) (baseUrl : String)
    (schs : List (String × String)) (name : String) (httpGet : String → Option Schedule) :
    (fetchSchedulePart st now baseUrl schs name httpGet).1.active_schedule_name =
      st.active_schedule_name ∧
    (fetchSchedulePart st now baseUrl schs name httpGet).1.persisted_active =
      st.persisted_active := by
  cases hh : httpGet (baseUrl ++ (manGet schs name).getD "") with
  | none => rw [fetchSchedulePart_httpNone hh]; exact ⟨rfl, rfl⟩
  | some ns =>
    by_cases hne : ns = []
    · subst hne
      rw [fetchSchedulePart_httpEmpty hh]
      exact ⟨rfl, rfl⟩
    · cases hfnb : find_next_bell ns now with
      | none =>
        rw [fetchSchedulePart_raise hh hne hfnb]
        exact ⟨rfl, rfl⟩
      | some p =>
        obtain ⟨nb, ns2⟩ := p
        rw [fetchSchedulePart_ok hh hne hfnb]
        exact ⟨rfl, rfl⟩

/-- C4 amended: whenever the fetch reports failure, the in-memory schedule,
its persisted cache, and the next-bell result are untouched; and when the
failure is in the manifest step itself (unreachable document or missing
required key), the entire state is untouched.  (The claim's stronger clause —
that the in-memory manifest is replaced only when the whole fetch succeeds —
is refuted by `C4_manifest_replaced_on_failed_download`: a valid manifest is
stored before the schedule download, so a download failure leaves the new
manifest in memory, and the active name may also have been switched and
persisted.) -/
theorem C4_failed_fetch_preserves_schedule (st : FetchState) (now : LocalTime)
    (mResp : Option RawManifest) (httpGet : String → Option Schedule)
    (hfail : (fetch_manifest_and_schedule st now mResp httpGet).2 = some false) :
    (fetch_manifest_and_schedule st now mResp httpGet).1.schedule = st.schedule ∧
    (fetch_manifest_and_schedule st now mResp httpGet).1.cache = st.cache ∧
    (fetch_manifest_and_schedule st now mResp httpGet).1.next_bell_event = st.next_bell_event ∧
    ((mResp = none ∨ ∃ m, mResp = some m ∧ (m.schedules = none ∨ m.base_url = none)) →
      fetch_manifest_and_schedule st now mResp httpGet = (st, some false)) := by
  cases mResp with
  | none =>
    rw [fetch_manifest_none]
    exact ⟨rfl, rfl, rfl, fun _ => rfl⟩
  | some m =>
    cases hs : m.schedules with
    | none =>
      rw [fetch_manifest_invalid (Or.inl hs)]
      exact ⟨rfl, rfl, rfl, fun _ => rfl⟩
    | some schs =>
      cases hb : m.base_url with
      | none =>
        rw [fetch_manifest_invalid (Or.inr hb)]
        exact ⟨rfl, rfl, rfl, fun _ => rfl⟩
      | some b =>
        by_cases hk : keysContains schs st.active_schedule_name = true
        · rw [fetch_manifest_keep hs hb hk] at hfail ⊢
          have hid := fetchSchedulePart_fail_id hfail
          rw [hid]
          refine ⟨rfl, rfl, rfl, ?_⟩
          rintro (h1 | ⟨m2, hm2, hbad⟩)
          · exact absurd h1 (by simp)
          · obtain rfl : m = m2 := by injection hm2
            rcases hbad with hbad | hbad
            · rw [hs] at hbad; exact absurd hbad (by simp)
            · rw [hb] at hbad; exact absurd hbad (by simp)
        · have hk2 : keysContains schs st.active_schedule_name = false :=
            Bool.eq_false_iff.mpr hk
          cases schs with
          | nil =>
            rw [fetch_manifest_emptymap hs hb hk2] at hfail
            exact absurd hfail (by simp)
          | cons p rest =>
            obtain ⟨n, f⟩ := p
            rw [fetch_manifest_switch hs hb hk2] at hfail ⊢
            have hid := fetchSchedulePart_fail_id hfail
            rw [hid]
            refine ⟨rfl, rfl, rfl, ?_⟩
            rintro (h1 | ⟨m2, hm2, hbad⟩)
            · exact absurd h1 (by simp)
            · obtain rfl : m = m2 := by injection hm2
              rcases hbad with hbad | hbad
              · rw [hs] at hbad; exact absurd hbad (by simp)
              · rw [hb] at hbad; exact absurd hbad (by simp)

/-! ## Concrete instances for the fetch claims -/

/-- Manifest held in memory before the runs below. -/
def exManifestOld : RawManifest := ⟨some [("Old Day", "o.json")], some "https://old/"⟩

/-- The §8 example manifest:
`{"schedules":{"Normal Day":"n.json"},"base_url":"https://x/"}`. -/
def exManifestNew : RawManifest := ⟨some [("Normal Day", "n.json")], some "https://x/"⟩

/-- Valid manifest whose schedules map is empty. -/
def exManifestEmpty : RawManifest := ⟨some [], some "https://x/"⟩

/-- Device state before a fetch: cached schedule loaded, active name
`"Normal Day"` (a key of `exManifestNew`). -/
def exState : FetchState :=
  { schedule := exSchedule, next_bell_event := none, schedule_manifest := exManifestOld,
    active_schedule_name := "Normal Day", cache := some exSchedule,
    persisted_active := some "Normal Day" }

/-- Device state whose active name `"Half Day"` is absent from
`exManifestNew` (the §8 scenario). -/
def exStateHalf : FetchState :=
  { exState with active_schedule_name := "Half Day", persisted_active := some "Half Day" }

/-- Transport in which every schedule-document request fails. -/
def httpNone : String → Option Schedule := fun _ => none

/-- Transport in which every schedule-document request parses to the empty
JSON object. -/
def httpEmpty : String → Option Schedule := fun _ => some []

/-- Transport serving the §8 one-event schedule document. -/
def httpOk : String → Option Schedule := fun _ => some exSchedule

/-- C4 counterexample: the manifest fetch succeeds with a fresh valid
manifest but the schedule download then fails; the fetch reports failure,
yet the in-memory manifest has already been replaced wholesale — so the
claim that all in-memory schedule state is untouched on failure is false. -/
theorem C4_manifest_replaced_on_failed_download :
    (fetch_manifest_and_schedule exState exNow (some exManifestNew) httpNone).2 = some false ∧
    (fetch_manifest_and_schedule exState exNow (some exManifestNew) httpNone).1.schedule_manifest =
      exManifestNew ∧
    exManifestNew ≠ exState.schedule_manifest := by decide

/-- C4 witness: the amended preservation theorem at a concrete failed
download — schedule, cache and next-bell are untouched. -/
theorem C4_failed_fetch_preserves_schedule_witness :
    (fetch_manifest_and_schedule exState exNow (some exManifestNew) httpNone).1.schedule =
      exState.schedule ∧
    (fetch_manifest_and_schedule exState exNow (some exManifestNew) httpNone).1.cache =
      exState.cache ∧
    (fetch_manifest_and_schedule exState exNow (some exManifestNew) httpNone).1.next_bell_event =
      exState.next_bell_event ∧
    ((some exManifestNew = none ∨ ∃ m, some exManifestNew = some m ∧
        (m.schedules = none ∨ m.base_url = none)) →
      fetch_manifest_and_schedule exState exNow (some exManifestNew) httpNone =
        (exState, some false)) :=
  C4_failed_fetch_preserves_schedule exState exNow (some exManifestNew) httpNone (by decide)

/-- C5 counterexample: a schedule document that is successfully retrieved and
parses to the empty JSON object is reported as a failure — with exactly the
same outcome as an unreachable document — so a caller cannot tell "fetch
failed" apart from "fetched, empty schedule". -/
theorem C5_empty_schedule_reported_as_failure :
    (fetch_manifest_and_schedule exState exNow (some exManifestNew) httpEmpty).2 = some false ∧
    fetch_manifest_and_schedule exState exNow (some exManifestNew) httpEmpty =
      fetch_manifest_and_schedule exState exNow (some exManifestNew) httpNone := by decide

/-- C5 amended: with a valid manifest (non-empty schedules map), the fetch
reports success exactly when the downloaded schedule document parses to a
truthy — that is, non-empty — JSON object (and next-bell recomputation does
not raise); a document parsing to the empty object is reported as failure,
identically to an unreachable or unparseable document. -/
theorem C5_success_reporting (st : FetchState) (now : LocalTime) (m : RawManifest)
    (schs : List (String × String)) (b : String) (httpGet : String → Option Schedule)
    (hs : m.schedules = some schs) (hb : m.base_url = some b) (hne : ¬(schs = [])) :
    (∀ ns nb ns2, httpGet (fetchTargetUrl st schs b) = some ns → ¬(ns = []) →
      find_next_bell ns now = some (nb, ns2) →
      (fetch_manifest_and_schedule st now (some m) httpGet).2 = some true) ∧
    (httpGet (fetchTargetUrl st schs b) = some [] →
      (fetch_manifest_and_schedule st now (some m) httpGet).2 = some false) ∧
    (httpGet (fetchTargetUrl st schs b) = none →
      (fetch_manifest_and_schedule st now (some m) httpGet).2 = some false) := by
  by_cases hk : keysContains schs st.active_schedule_name = true
  · have hurl : fetchTargetUrl st schs b = b ++ (manGet schs st.active_schedule_name).getD "" := by
      rw [fetchTargetUrl, fetchTargetName, if_pos hk]
    rw [fetch_manifest_keep hs hb hk, hurl]
    refine ⟨?_, ?_, ?_⟩
    · intro ns nb ns2 hh hne2 hfnb
      rw [fetchSchedulePart_ok hh hne2 hfnb]
    · intro hh
      rw [fetchSchedulePart_httpEmpty hh]
    · intro hh
      rw [fetchSchedulePart_httpNone hh]
  · have hk2 : keysContains schs st.active_schedule_name = false := Bool.eq_false_iff.mpr hk
    cases schs with
    | nil => exact absurd rfl hne
    | cons p rest =>
      obtain ⟨n, f⟩ := p
      have hurl : fetchTargetUrl st ((n, f) :: rest) b =
          b ++ (manGet ((n, f) :: rest) n).getD "" := by
        rw [fetchTargetUrl, fetchTargetName, if_neg (by rw [hk2]; simp)]
        rfl
      rw [fetch_manifest_switch hs hb hk2, hurl]
      refine ⟨?_, ?_, ?_⟩
      · intro ns nb ns2 hh hne2 hfnb
        rw [fetchSchedulePart_ok hh hne2 hfnb]
      · intro hh
        rw [fetchSchedulePart_httpEmpty hh]
      · intro hh
        rw [fetchSchedulePart_httpNone hh]

/-- C5 witness: the success-reporting theorem at concrete transports — a
non-empty document reports success, the empty document reports failure. -/
theorem C5_success_reporting_witness :
    (fetch_manifest_and_schedule exState exNow (some exManifestNew) httpOk).2 = some true ∧
    (fetch_manifest_and_schedule exState exNow (some exManifestNew) httpEmpty).2 = some false := by
  constructor
  · exact (C5_success_reporting exState exNow exManifestNew [("Normal Day", "n.json")]
      "https://x/" httpOk rfl rfl (by decide)).1 exSchedule (some exAnnotated) exMutated
      (by decide) (by decide) (by decide)
  · exact (C5_success_reporting exState exNow exManifestNew [("Normal Day", "n.json")]
      "https://x/" httpEmpty rfl rfl (by decide)).2.1 (by decide)

/-- C6 counterexample: a freshly fetched valid manifest with an *empty*
schedules map and an absent active name makes the fetch raise
`StopIteration` (outcome `none`) instead of selecting and persisting a first
entry; the active name is left as it was. -/
theorem C6_empty_schedules_map_raises :
    (fetch_manifest_and_schedule exStateHalf exNow (some exManifestEmpty) httpNone).2 = none ∧
    (fetch_manifest_and_schedule exStateHalf exNow
        (some exManifestEmpty) httpNone).1.active_schedule_name = "Half Day" ∧
    (fetch_manifest_and_schedule exStateHalf exNow
        (some exManifestEmpty) httpNone).1.persisted_active = some "Half Day" := by decide

/-- C6 amended: for a freshly fetched valid manifest with a *non-empty*
schedules map, if the active name is not one of its keys the fetcher sets
the active name to the manifest's first entry and persists it; if the active
name is a key, both the name and its persisted copy are unchanged.  (With an
empty schedules map and an absent active name the fetch instead raises, see
the counterexample.) -/
theorem C6_active_name_selection (st : FetchState) (now : LocalTime) (m : RawManifest)
    (n f : String) (rest : List (String × String)) (b : String)
    (httpGet : String → Option Schedule)
    (hs : m.schedules = some ((n, f) :: rest)) (hb : m.base_url = some b) :
    (keysContains ((n, f) :: rest) st.active_schedule_name = false →
      (fetch_manifest_and_schedule st now (some m) httpGet).1.active_schedule_name = n ∧
      (fetch_manifest_and_schedule st now (some m) httpGet).1.persisted_active = some n) ∧
    (keysContains ((n, f) :: rest) st.active_schedule_name = true →
      (fetch_manifest_and_schedule st now (some m) httpGet).1.active_schedule_name =
        st.active_schedule_name ∧
      (fetch_manifest_and_schedule st now (some m) httpGet).1.persisted_active =
        st.persisted_active) := by
  constructor
  · intro hk
    rw [fetch_manifest_switch hs hb hk]
    have hnames := fetchSchedulePart_names
      (save_active_schedule_name { st with schedule_manifest := m } n) now b
      ((n, f) :: rest) n httpGet
    rw [hnames.1, hnames.2]
    exact ⟨rfl, rfl⟩
  · intro hk
    rw [fetch_manifest_keep hs hb hk]
    have hnames := fetchSchedulePart_names
      { st with schedule_manifest := m } now b ((n, f) :: rest)
      st.active_schedule_name httpGet
    rw [hnames.1, hnames.2]
    exact ⟨rfl, rfl⟩

/-- C6 witness: the §8 scenario — manifest listing only `"Normal Day"`,
prior active name `"Half Day"` — ends with active name `"Normal Day"`,
persisted. -/
theorem C6_active_name_selection_witness :
    (fetch_manifest_and_schedule exStateHalf exNow
        (some exManifestNew) httpNone).1.active_schedule_name = "Normal Day" ∧
    (fetch_manifest_and_schedule exStateHalf exNow
        (some exManifestNew) httpNone).1.persisted_active = some "Normal Day" :=
  (C6_active_name_selection exStateHalf exNow exManifestNew "Normal Day" "n.json" []
    "https://x/" httpNone rfl rfl).1 (by decide)

/-! ## Minute-edge guard (lines 811-813 of `main.py`) -/

/-- One evaluation of the guard `if now[4] != last_check_minute:
last_check_minute = now[4]` at the top of the per-minute block: returns the
new `last_check_minute` and whether the block body (display refresh, 07:30
resync, bell scan) runs this tick.  `last_check_minute` is an `Int` because
it is initialised to `-1` (line 783). -/
def minuteGuardStep (lastCheckMinute : Int) (minuteNow : Nat) : Int × Bool :=
  if ¬((minuteNow : Int) = lastCheckMinute) then ((minuteNow : Int), true)
  else (lastCheckMinute, false)

/-- The guard run over the minute values observed by successive loop ticks;
one Bool per tick, `true` when that tick evaluated the per-minute block. -/
def runMinuteGuard (lastCheckMinute : Int) : List Nat → List Bool
  | [] => []
  | m :: rest =>
    ((minuteGuardStep lastCheckMinute m).2) :: runMinuteGuard (minuteGuardStep lastCheckMinute m).1 rest

/-- After the guard has latched a minute value, ticks observing that same
value never fire. -/
theorem runMinuteGuard_latched (m : Nat) :
    ∀ ticks : List Nat, (∀ x ∈ ticks, x = m) →
    runMinuteGuard ((m : Nat) : Int) ticks = List.replicate ticks.length false := by
  intro ticks
  induction ticks with
  | nil => intro _; rfl
  | cons t rest ih =>
    intro hconst
    obtain rfl : t = m := hconst t (List.mem_cons_self _ _)
    have hstep : minuteGuardStep ((t : Nat) : Int) t = (((t : Nat) : Int), false) := by
      rw [minuteGuardStep, if_neg]
      intro hne
      exact hne rfl
    rw [runMinuteGuard, hstep]
    rw [ih (fun x hx => hconst x (List.mem_cons_of_mem _ hx))]
    rfl

/-- C3: minute-edge bell evaluation runs at most once per distinct observed
minute value — over any run of loop ticks that all observe the same minute
value, the per-minute block fires at most once, and every tick after the
fire (within the run) does not fire again. -/
theorem C3_minute_edge_at_most_once (lastCheckMinute : Int) (m : Nat) (ticks : List Nat)
    (hconst : ∀ x ∈ ticks, x = m) :
    ((runMinuteGuard lastCheckMinute ticks).count true ≤ 1) ∧
    (∀ pre post, runMinuteGuard lastCheckMinute ticks = pre ++ true :: post →
      ∀ b ∈ post, b = false) := by
  have hmain : (runMinuteGuard lastCheckMinute ticks).count true ≤ 1 := by
    cases ticks with
    | nil => simp [runMinuteGuard]
    | cons t rest =>
      obtain rfl : t = m := hconst t (List.mem_cons_self _ _)
      have hrest : ∀ x ∈ rest, x = t := fun x hx => hconst x (List.mem_cons_of_mem _ hx)
      by_cases hne : ((t : Nat) : Int) = lastCheckMinute
      · have hstep : minuteGuardStep lastCheckMinute t = (lastCheckMinute, false) := by
          rw [minuteGuardStep, if_neg]
          intro hcon
          exact hcon hne
        rw [runMinuteGuard, hstep]
        have hlatch : runMinuteGuard lastCheckMinute rest =
            List.replicate rest.length false := by
          rw [← hne]
          exact runMinuteGuard_latched t rest hrest
        rw [hlatch]
        simp [List.count_replicate]
      · have hstep : minuteGuardStep lastCheckMinute t = (((t : Nat) : Int), true) := by
          rw [minuteGuardStep, if_pos]
          exact hne
        rw [runMinuteGuard, hstep]
        rw [runMinuteGuard_latched t rest hrest]
        simp [List.count_replicate]
  refine ⟨hmain, ?_⟩
  intro pre post heq b hb
  cases b with
  | false => rfl
  | true =>
    exfalso
    rw [heq] at hmain
    have h1 : 0 < post.count true := List.count_pos_iff.mpr hb
    simp [List.count_append, List.count_cons] at hmain
    omega

/-- C3 witness: three ticks inside minute 5, starting from the boot value
`-1`: the block fires exactly on the first tick. -/
theorem C3_minute_edge_at_most_once_witness :
    ((runMinuteGuard (-1) [5, 5, 5]).count true ≤ 1) ∧
    (∀ pre post, runMinuteGuard (-1) [5, 5, 5] = pre ++ true :: post →
      ∀ b ∈ post, b = false) :=
  C3_minute_edge_at_most_once (-1) 5 [5, 5, 5] (by decide)

/-! ## Web request handling and authentication (lines 496-629 of `main.py`) -/

/-- Static security configuration (`config.API_KEY`,
`config.WEB_INTERFACE_PASSWORD`). -/
structure AuthCfg where
  api_key : String
  web_password : String
  deriving DecidableEq, Repr

/-- An inbound HTTP request as `handle_web_request` parses it: method and
path from the request line, the (lower-cased) `x-api-key` and `cookie`
headers (`none` when absent), and the already-unquoted password value of a
`POST /login` body. -/
structure WebRequest where
  method : String
  path : String
  apiKey : Option String
  cookie : Option String
  password : String
  deriving DecidableEq, Repr

/-- The response classes `handle_web_request` can produce. -/
inductive WebResponse where
  | loginPage (failed : Bool)
  | redirect (loc : String)
  | unauthorized
  | okJson
  | okHtml
  | notFound
  deriving DecidableEq, Repr

/-- Python `str(current_session_id)` as interpolated into
`f'session={current_session_id}'`: the token, or `"None"`. -/
def sessionStr : Option String → String
  | some t => t
  | none => "None"

/-- Line 532 of `main.py`: the session cookie authenticates iff the whole
cookie header equals `session=<current id>` and a session id exists. -/
def validCookie (session : Option String) (req : WebRequest) : Prop :=
  req.cookie = some ("session=" ++ sessionStr session) ∧ ¬(session = none)

instance (session : Option String) (req : WebRequest) : Decidable (validCookie session req) :=
  inferInstanceAs (Decidable (_ ∧ _))

/-- Lines 530-531 of `main.py`: the pre-shared key authenticates iff the
`x-api-key` header is present and equals the configured key. -/
def validKey (cfg : AuthCfg) (req : WebRequest) : Prop :=
  req.apiKey = some cfg.api_key

instance (cfg : AuthCfg) (req : WebRequest) : Decidable (validKey cfg req) :=
  inferInstanceAs (Decidable (_ = _))

/-- Line 534: the two machine-readable read-only routes. -/
def api_readonly_paths : List String := ["/holidaystatus", "/schedule_status"]

/-- Keys of the `actions` dict (lines 589-597). -/
def actionPaths : List String :=
  ["/force-update", "/test-relay1", "/test-relay2", "/holidayon", "/holidayoff",
   "/set_schedule_normal", "/set_schedule_half"]

/-- Embedding of the response/dispatch skeleton of `handle_web_request`
(lines 496-629 of `main.py`).  State effects other than the session id
(relay tests, holiday toggles, schedule fetches) are not modelled here: the
function returns the response class and the new `current_session_id`.
`mintTok` stands for `str(utime.time())`, the token minted on a successful
login. -/
def handle_web_request (cfg : AuthCfg) (session : Option String) (mintTok : String)
    (req : WebRequest) : WebResponse × Option String :=
  if req.path = "/login" then
    if req.method = "POST" then
      if req.password = cfg.web_password then (.redirect "/", some mintTok)
      else (.loginPage true, session)
    else (.loginPage false, session)
  else if req.path = "/logout" then (.redirect "/login", none)
  else if req.path ∈ api_readonly_paths then
    if validKey cfg req then (.okJson, session) else (.unauthorized, session)
  else if ¬(validCookie session req ∨ validKey cfg req) then
    if ¬(req.apiKey = none) then (.unauthorized, session) else (.redirect "/login", session)
  else if req.path ∈ actionPaths then
    if ¬(req.apiKey = none) then (.okJson, session) else (.okHtml, session)
  else if req.method = "POST" ∧ req.path = "/set_schedule" then (.redirect "/", session)
  else if req.path = "/ota_update" then (.okHtml, session)
  else if req.path = "/" then (.okHtml, session)
  else if req.path = "/diagnostics" then (.okHtml, session)
  else if req.path = "/log" then (.okHtml, session)
  else (.notFound, session)

/-- The protected routes named by the claim: the mutating actions (including
the posted set-schedule form and the update check), diagnostics, the home
status page and the event log. -/
def protectedPaths : List String :=
  actionPaths ++ ["/set_schedule", "/ota_update", "/", "/diagnostics", "/log"]

/-- A response that serves the request rather than rejecting it: page or
JSON content, or the post-action redirect back to the status page. -/
def ServedResponse : WebResponse → Prop
  | .okJson => True
  | .okHtml => True
  | .redirect loc => loc = "/"
  | _ => False

/-- C7: every request to a protected route with neither a valid session
cookie nor the configured pre-shared key is rejected — unauthorized when an
`x-api-key` header was sent (even a wrong one), a redirect to the login page
when no key header was sent; and every request with a valid cookie or a
valid key is served. -/
theorem C7_protected_route_auth (cfg : AuthCfg) (session : Option String) (mintTok : String)
    (req : WebRequest) (hp : req.path ∈ protectedPaths)
    (hm : req.path = "/set_schedule" → req.method = "POST") :
    (¬validCookie session req ∧ ¬validKey cfg req →
      (¬(req.apiKey = none) →
        (handle_web_request cfg session mintTok req).1 = .unauthorized) ∧
      (req.apiKey = none →
        (handle_web_request cfg session mintTok req).1 = .redirect "/login")) ∧
    (validCookie session req ∨ validKey cfg req →
      ServedResponse (handle_web_request cfg session mintTok req).1) := by
  have hnl : ¬(req.path = "/login") := by
    intro h
    rw [h] at hp
    exact absurd hp (by decide)
  have hno : ¬(req.path = "/logout") := by
    intro h
    rw [h] at hp
    exact absurd hp (by decide)
  have hnr : ¬(req.path ∈ api_readonly_paths) := by
    intro h
    simp only [api_readonly_paths, List.mem_cons, List.not_mem_nil, or_false] at h
    rcases h with h | h <;> (rw [h] at hp; exact absurd hp (by decide))
  constructor
  · intro ⟨hnc, hnk⟩
    have hguard : ¬(validCookie session req ∨ validKey cfg req) := by
      rintro (h | h)
      · exact hnc h
      · exact hnk h
    constructor
    · intro hkey
      simp only [handle_web_request, if_neg hnl, if_neg hno, if_neg hnr, if_pos hguard,
        if_pos hkey]
    · intro hnokey
      have hkey2 : ¬¬(req.apiKey = none) := fun h => h hnokey
      simp only [handle_web_request, if_neg hnl, if_neg hno, if_neg hnr, if_pos hguard,
        if_neg hkey2]
  · intro hperm
    have hguard : ¬¬(validCookie session req ∨ validKey cfg req) := fun h => h hperm
    simp only [handle_web_request, if_neg hnl, if_neg hno, if_neg hnr, if_neg hguard]
    simp only [protectedPaths, actionPaths, List.mem_append, List.mem_cons,
      List.not_mem_nil, or_false] at hp
    rcases hp with (h | h | h | h | h | h | h) | (h | h | h | h | h)
    · rw [h, if_pos (by decide)]
      split
      · exact trivial
      · exact trivial
    · rw [h, if_pos (by decide)]
      split
      · exact trivial
      · exact trivial
    · rw [h, if_pos (by decide)]
      split
      · exact trivial
      · exact trivial
    · rw [h, if_pos (by decide)]
      split
      · exact trivial
      · exact trivial
    · rw [h, if_pos (by decide)]
      split
      · exact trivial
      · exact trivial
    · rw [h, if_pos (by decide)]
      split
      · exact trivial
      · exact trivial
    · rw [h, if_pos (by decide)]
      split
      · exact trivial
      · exact trivial
    · have hpost : req.method = "POST" := hm h
      rw [h, if_neg (by decide), if_pos ⟨hpost, rfl⟩]
      exact rfl
    · rw [h, if_neg (by decide),
        if_neg (by rintro ⟨-, hbad⟩; exact absurd hbad (by decide)), if_pos rfl]
      exact trivial
    · rw [h, if_neg (by decide),
        if_neg (by rintro ⟨-, hbad⟩; exact absurd hbad (by decide)),
        if_neg (by decide), if_pos rfl]
      exact trivial
    · rw [h, if_neg (by decide),
        if_neg (by rintro ⟨-, hbad⟩; exact absurd hbad (by decide)),
        if_neg (by decide), if_neg (by decide), if_pos rfl]
      exact trivial
    · rw [h, if_neg (by decide),
        if_neg (by rintro ⟨-, hbad⟩; exact absurd hbad (by decide)),
        if_neg (by decide), if_neg (by decide), if_neg (by decide), if_pos rfl]
      exact trivial

/-- C7 witness: concrete protected-route requests - with no credentials the
request is redirected to login; with the valid key it is served. -/
theorem C7_protected_route_auth_witness :
    (((¬validCookie (some "tok1") ⟨"GET", "/holidayon", none, none, ""⟩ ∧
        ¬validKey ⟨"secret-key", "pw"⟩ ⟨"GET", "/holidayon", none, none, ""⟩) →
      (¬((⟨"GET", "/holidayon", none, none, ""⟩ : WebRequest).apiKey = none) →
        (handle_web_request ⟨"secret-key", "pw"⟩ (some "tok1") "t2"
          ⟨"GET", "/holidayon", none, none, ""⟩).1 = .unauthorized) ∧
      (((⟨"GET", "/holidayon", none, none, ""⟩ : WebRequest).apiKey = none) →
        (handle_web_request ⟨"secret-key", "pw"⟩ (some "tok1") "t2"
          ⟨"GET", "/holidayon", none, none, ""⟩).1 = .redirect "/login")) ∧
    ((validCookie (some "tok1") ⟨"GET", "/holidayon", none, none, ""⟩ ∨
        validKey ⟨"secret-key", "pw"⟩ ⟨"GET", "/holidayon", none, none, ""⟩) →
      ServedResponse (handle_web_request ⟨"secret-key", "pw"⟩ (some "tok1") "t2"
        ⟨"GET", "/holidayon", none, none, ""⟩).1)) :=
  C7_protected_route_auth ⟨"secret-key", "pw"⟩ (some "tok1") "t2"
    ⟨"GET", "/holidayon", none, none, ""⟩ (by decide) (by intro h; exact absurd h (by decide))

/-! ## Minute-edge bell evaluation (lines 816-830 of `main.py`) and the
relay actuation timing model (lines 406-414) -/

/-- Python truthiness of `entry.get('relay')` (line 827, `if r:`): an absent
key or the value `0` is falsy, every other integer truthy. -/
def relayTruthy : Option Int → Bool
  | none => false
  | some r => if r = 0 then false else true

/-- The `for entry in schedule[day_str]:` loop (lines 824-830): for each
entry whose time string equals the current `"HH:MM"` and whose relay value is
truthy, record the actuation `(relay, belllength-or-default)` and recompute
the next bell with `find_next_bell()` — which may also rewrite the schedule
(day-name aliasing) and, on a malformed schedule, raise (overall `none`).
The iterated list is a snapshot of the day's entries, as in Python, where
`find_next_bell` never changes the structure of the list being iterated.
Actuations accumulate in reverse and are reversed at the end. -/
def bellScanGo (cur : String) (dflt : Int) (now : LocalTime) :
    List BellEvent → Schedule → Option BellEvent → List (Int × Int) →
    Option (List (Int × Int) × Option BellEvent × Schedule)
  | [], sched, nb, acts => some (acts.reverse, nb, sched)
  | entry :: rest, sched, nb, acts =>
    if entry.time = some cur ∧ relayTruthy entry.relay = true then
      match find_next_bell sched now with
      | none => none
      | some (nb2, sched2) =>
        bellScanGo cur dflt now rest sched2 nb2
          ((entry.relay.getD 0, entry.belllength.getD dflt) :: acts)
    else bellScanGo cur dflt now rest sched nb acts

/-- Embedding of the per-minute bell evaluation (lines 816-830 of
`main.py`), given the schedule in effect when the scan starts (after any
07:30 resync has already replaced it): when HolidayMode is on the whole
block is skipped; otherwise every entry of today's list whose time equals
`f"{now[3]:02d}:{now[4]:02d}"` and whose relay is truthy is actuated in list
order, recomputing the next bell after each actuation.  Returns the ordered
actuation list `(relay, duration)`, the final `next_bell_event` and the
final `schedule`; `none` models an exception escaping `find_next_bell`. -/
def minute_bell_eval (sched : Schedule) (nb : Option BellEvent) (holiday : Bool)
    (now : LocalTime) (dflt : Int) :
    Option (List (Int × Int) × Option BellEvent × Schedule) :=
  if holiday then some ([], nb, sched)
  else
    let cur := hhmmStr now.hour now.minute
    match dictGet sched (dayKey now.weekday) with
    | none => some ([], nb, sched)
    | some evs =>
      if evs = [] then some ([], nb, sched)
      else bellScanGo cur dflt now evs sched nb []

/-- The actuations the source performs for a day's entry list: entries
matching the current time with a truthy relay, in list order, each paired
with its `belllength` or the configured default. -/
def matchingActs (evs : List BellEvent) (cur : String) (dflt : Int) : List (Int × Int) :=
  (evs.filter (fun e => decide (e.time = some cur) && relayTruthy e.relay)).map
    (fun e => (e.relay.getD 0, e.belllength.getD dflt))

/-- Timing model of sequential `activate_relay` calls (lines 406-414): the
call at time `t` drives its relay high, sleeps for the full duration, and
drives it low before returning, so the k-th actuation occupies the interval
`(relay, start, start + duration)` and the next one starts exactly at its
end. -/
def execIntervals (t : Int) : List (Int × Int) → List (Int × Int × Int)
  | [] => []
  | (r, d) :: rest => (r, t, t + d) :: execIntervals (t + d) rest

/-- Consecutive intervals meet exactly: each interval ends where the next
begins — no overlap and no gap, hence strictly sequential actuation. -/
def SequentialIntervals : List (Int × Int × Int) → Prop
  | (_, _, e1) :: (r2, s2, e2) :: rest => e1 = s2 ∧ SequentialIntervals ((r2, s2, e2) :: rest)
  | _ => True

theorem execIntervals_sequential : ∀ (t : Int) (acts : List (Int × Int)),
    SequentialIntervals (execIntervals t acts)
  | _, [] => trivial
  | _, [(_, _)] => trivial
  | t, (_, d) :: (r2, d2) :: rest => ⟨rfl, execIntervals_sequential (t + d) ((r2, d2) :: rest)⟩

/-- Every executed interval lasts exactly its requested duration on its
requested relay. -/
theorem execIntervals_durations : ∀ (t : Int) (acts : List (Int × Int)),
    (execIntervals t acts).map (fun iv => (iv.1, iv.2.2 - iv.2.1)) = acts
  | _, [] => rfl
  | t, (_, d) :: rest => by
    simp only [execIntervals, List.map_cons, execIntervals_durations (t + d) rest]
    simp

theorem replace_mem {l : List BellEvent} {a b e : BellEvent}
    (h : e ∈ l.replace a b) : e ∈ l ∨ e = b := by
  induction l with
  | nil => exact absurd h (by simp)
  | cons x xs ih =>
    rw [List.replace_cons] at h
    by_cases hx : a = x
    · have hbeq : (a == x) = true := by simp [hx]
      rw [hbeq] at h
      have h2 : e ∈ b :: xs := h
      rcases List.mem_cons.mp h2 with rfl | h3
      · exact Or.inr rfl
      · exact Or.inl (List.mem_cons_of_mem _ h3)
    · have hbeq : (a == x) = false := by simp [hx]
      rw [hbeq] at h
      have h2 : e ∈ x :: xs.replace a b := h
      rcases List.mem_cons.mp h2 with rfl | h3
      · exact Or.inl (List.mem_cons_self _ _)
      · rcases ih h3 with h4 | h4
        · exact Or.inl (List.mem_cons_of_mem _ h4)
        · exact Or.inr h4

theorem dictSet_mem : ∀ {sched : Schedule} {k : String} {nv : List BellEvent}
    {p : String × List BellEvent}, p ∈ dictSet sched k nv → p ∈ sched ∨ p = (k, nv) := by
  intro sched
  induction sched with
  | nil => intro k nv p h; exact absurd h (by simp [dictSet])
  | cons q rest ih =>
    intro k nv p h
    obtain ⟨qk, qv⟩ := q
    by_cases hk : qk = k
    · subst hk
      simp only [dictSet, if_pos rfl] at h
      rcases List.mem_cons.mp h with rfl | h2
      · exact Or.inr rfl
      · exact Or.inl (List.mem_cons_of_mem _ h2)
    · simp only [dictSet, if_neg hk] at h
      rcases List.mem_cons.mp h with rfl | h2
      · exact Or.inl (List.mem_cons_self _ _)
      · rcases ih h2 with h3 | h3
        · exact Or.inl (List.mem_cons_of_mem _ h3)
        · exact Or.inr h3

/-- Parse-safety is preserved by `find_next_bell`: the day-name annotation
touches no `time` field. -/
theorem PW_after_find {sched : Schedule} {now : LocalTime} {nb : Option BellEvent}
    {sched2 : Schedule} (hpw : PW sched)
    (h : find_next_bell sched now = some (nb, sched2)) : PW sched2 := by
  rcases find_next_bell_delta h with ⟨-, rfl⟩ | ⟨dayIdx, evs, orig, hdg, hmem, -, rfl⟩
  · exact hpw
  · intro p hp e he
    rcases dictSet_mem hp with hp2 | rfl
    · exact hpw p hp2 e he
    · rcases replace_mem he with he2 | rfl
      · exact hpw _ (dictGet_mem hdg) e he2
      · have := hpw _ (dictGet_mem hdg) orig hmem
        exact this

/-- The bell-scan loop on a parseable schedule: it returns, its actuation
list is the matching entries in order, and the next-bell value is
recomputed (by a `find_next_bell` call made after the last actuation)
exactly when at least one entry matched. -/
theorem bellScanGo_spec (cur : String) (dflt : Int) (now : LocalTime) :
    ∀ (evs : List BellEvent) (sched : Schedule) (nb : Option BellEvent)
      (acts : List (Int × Int)), PW sched →
    ∃ nb2 sched2, bellScanGo cur dflt now evs sched nb acts =
        some (acts.reverse ++ matchingActs evs cur dflt, nb2, sched2) ∧
      (matchingActs evs cur dflt = [] → nb2 = nb ∧ sched2 = sched) ∧
      (¬(matchingActs evs cur dflt = []) →
        ∃ sp, PW sp ∧ find_next_bell sp now = some (nb2, sched2)) := by
  intro evs
  induction evs with
  | nil =>
    intro sched nb acts hpw
    refine ⟨nb, sched, ?_, fun _ => ⟨rfl, rfl⟩, fun hne => absurd rfl hne⟩
    simp [bellScanGo, matchingActs]
  | cons entry rest ih =>
    intro sched nb acts hpw
    by_cases hmatch : entry.time = some cur ∧ relayTruthy entry.relay = true
    · have hmA : matchingActs (entry :: rest) cur dflt =
          (entry.relay.getD 0, entry.belllength.getD dflt) :: matchingActs rest cur dflt := by
        simp only [matchingActs, List.filter_cons]
        rw [if_pos (by simp [hmatch.1, hmatch.2])]
        rfl
      have hfs := @find_next_bell_isSome sched now hpw
      cases hf : find_next_bell sched now with
      | none => rw [hf] at hfs; exact absurd hfs (by simp)
      | some p =>
        obtain ⟨nbA, schedA⟩ := p
        have hpwA : PW schedA := PW_after_find hpw hf
        obtain ⟨nb2, sched2, hrun, hempty, hnon⟩ :=
          ih schedA nbA ((entry.relay.getD 0, entry.belllength.getD dflt) :: acts) hpwA
        refine ⟨nb2, sched2, ?_, ?_, ?_⟩
        · simp only [bellScanGo]
          rw [if_pos hmatch, hf]
          show bellScanGo cur dflt now rest schedA nbA
              ((entry.relay.getD 0, entry.belllength.getD dflt) :: acts) =
            some (acts.reverse ++ matchingActs (entry :: rest) cur dflt, nb2, sched2)
          rw [hrun, hmA]
          simp [List.reverse_cons, List.append_assoc]
        · intro hcon
          rw [hmA] at hcon
          exact absurd hcon (by simp)
        · intro _
          by_cases hrest : matchingActs rest cur dflt = []
          · obtain ⟨rfl, rfl⟩ := hempty hrest
            exact ⟨sched, hpw, hf⟩
          · exact hnon hrest
    · have hmA : matchingActs (entry :: rest) cur dflt = matchingActs rest cur dflt := by
        simp only [matchingActs, List.filter_cons]
        rw [if_neg]
        intro hcon
        simp only [Bool.and_eq_true, decide_eq_true_eq] at hcon
        exact hmatch hcon
      obtain ⟨nb2, sched2, hrun, hempty, hnon⟩ := ih sched nb acts hpw
      refine ⟨nb2, sched2, ?_, ?_, ?_⟩
      · simp only [bellScanGo]
        rw [if_neg hmatch, hrun, hmA]
      · intro hcon
        rw [hmA] at hcon
        exact hempty hcon
      · intro hne
        rw [hmA] at hne
        exact hnon hne

theorem minute_bell_eval_off_nokey {sched : Schedule} {nb : Option BellEvent}
    {now : LocalTime} {dflt : Int} (hdg : dictGet sched (dayKey now.weekday) = none) :
    minute_bell_eval sched nb false now dflt = some ([], nb, sched) := by
  simp only [minute_bell_eval, if_neg (by simp : ¬(false = true)), hdg]

theorem minute_bell_eval_off_empty {sched : Schedule} {nb : Option BellEvent}
    {now : LocalTime} {dflt : Int} (hdg : dictGet sched (dayKey now.weekday) = some []) :
    minute_bell_eval sched nb false now dflt = some ([], nb, sched) := by
  simp only [minute_bell_eval, if_neg (by simp : ¬(false = true)), hdg, if_pos]

theorem minute_bell_eval_off_scan {sched : Schedule} {nb : Option BellEvent}
    {now : LocalTime} {dflt : Int} {evs : List BellEvent}
    (hdg : dictGet sched (dayKey now.weekday) = some evs) (hne : ¬(evs = [])) :
    minute_bell_eval sched nb false now dflt =
      bellScanGo (hhmmStr now.hour now.minute) dflt now evs sched nb [] := by
  simp only [minute_bell_eval, if_neg (by simp : ¬(false = true)), hdg, if_neg hne]

/-- Event at `08:00` whose `relay` key is present with value `0`. -/
def c2xEvent : BellEvent :=
  { time := some "08:00", bellname := none, relay := some 0, belllength := none,
    day_name := none }

/-- Monday schedule holding only `c2xEvent`. -/
def c2xSched : Schedule := [("0", [c2xEvent])]

/-- Monday 08:00. -/
def c2xNow : LocalTime := ⟨8, 0, 0⟩

/-- C2 counterexample: an event whose time matches the current minute and
which specifies a relay — the key is present, with value `0` — is *not*
actuated: Python's `if r:` treats the integer `0` as falsy, so the
minute-edge evaluation performs no actuation at all for it. -/
theorem C2_relay_zero_event_not_actuated :
    c2xEvent.time = some (hhmmStr c2xNow.hour c2xNow.minute) ∧ ¬(c2xEvent.relay = none) ∧
    minute_bell_eval c2xSched none false c2xNow 1 = some ([], none, c2xSched) := by decide

/-- C2 amended: on a minute edge with HolidayMode off, exactly the entries
of today's schedule whose time string equals the current `"HH:MM"` and whose
relay value is truthy (present and non-zero) are actuated, sequentially in
schedule order, each for its `belllength` seconds or the configured default
when that key is absent; the next-bell value is recomputed by a
`find_next_bell` call issued after the actuations exactly when some entry
matched; and the actuation intervals are strictly sequential — each ends
where the next begins, each lasting exactly its requested duration.  With
HolidayMode on, nothing is actuated and nothing is recomputed. -/
theorem C2_minute_edge_trigger (sched : Schedule) (nb : Option BellEvent) (now : LocalTime)
    (dflt : Int) (hpw : PW sched) :
    (minute_bell_eval sched nb true now dflt = some ([], nb, sched)) ∧
    (∃ nb2 sched2, minute_bell_eval sched nb false now dflt =
        some (matchingActs (dayEvents sched now.weekday) (hhmmStr now.hour now.minute) dflt,
          nb2, sched2) ∧
      (matchingActs (dayEvents sched now.weekday) (hhmmStr now.hour now.minute) dflt = [] →
        nb2 = nb ∧ sched2 = sched) ∧
      (¬(matchingActs (dayEvents sched now.weekday) (hhmmStr now.hour now.minute) dflt = []) →
        ∃ sp, find_next_bell sp now = some (nb2, sched2))) ∧
    (∀ (t : Int) (acts : List (Int × Int)),
      SequentialIntervals (execIntervals t acts) ∧
      (execIntervals t acts).map (fun iv => (iv.1, iv.2.2 - iv.2.1)) = acts) := by
  refine ⟨rfl, ?_, fun t acts => ⟨execIntervals_sequential t acts, execIntervals_durations t acts⟩⟩
  cases hdg : dictGet sched (dayKey now.weekday) with
  | none =>
    refine ⟨nb, sched, ?_, fun _ => ⟨rfl, rfl⟩, fun hne => absurd ?_ hne⟩
    · rw [minute_bell_eval_off_nokey hdg, dayEvents_nil hdg]
      rfl
    · rw [dayEvents_nil hdg]
      rfl
  | some evs =>
    by_cases hne : evs = []
    · subst hne
      refine ⟨nb, sched, ?_, fun _ => ⟨rfl, rfl⟩, fun hne2 => absurd ?_ hne2⟩
      · rw [minute_bell_eval_off_empty hdg, dayEvents_eq hdg]
        rfl
      · rw [dayEvents_eq hdg]
        rfl
    · obtain ⟨nb2, sched2, hrun, hempty, hnon⟩ :=
        bellScanGo_spec (hhmmStr now.hour now.minute) dflt now evs sched nb [] hpw
      refine ⟨nb2, sched2, ?_, ?_, ?_⟩
      · rw [minute_bell_eval_off_scan hdg hne, hrun, dayEvents_eq hdg]
        rfl
      · intro hcon
        rw [dayEvents_eq hdg] at hcon
        exact hempty hcon
      · intro hne2
        rw [dayEvents_eq hdg] at hne2
        obtain ⟨sp, -, hfind⟩ := hnon hne2
        exact ⟨sp, hfind⟩

/-- First event of the §8 two-relay example. -/
def c2wEvent1 : BellEvent :=
  { time := some "08:00", bellname := none, relay := some 1, belllength := none,
    day_name := none }

/-- Second event of the §8 two-relay example. -/
def c2wEvent2 : BellEvent :=
  { time := some "08:00", bellname := none, relay := some 2, belllength := none,
    day_name := none }

/-- The §8 example schedule
`{"0":[{"time":"08:00","relay":1},{"time":"08:00","relay":2}]}`. -/
def c2wSched : Schedule := [("0", [c2wEvent1, c2wEvent2])]

/-- Monday 08:00 for the two-relay example. -/
def c2wNow : LocalTime := ⟨8, 0, 0⟩

/-- C2 witness: the amended trigger theorem at the §8 example — on Monday
08:00 both relays are actuated sequentially in schedule order. -/
theorem C2_minute_edge_trigger_witness :
    (minute_bell_eval c2wSched none true c2wNow 1 = some ([], none, c2wSched)) ∧
    (∃ nb2 sched2, minute_bell_eval c2wSched none false c2wNow 1 =
        some (matchingActs (dayEvents c2wSched c2wNow.weekday)
          (hhmmStr c2wNow.hour c2wNow.minute) 1, nb2, sched2) ∧
      (matchingActs (dayEvents c2wSched c2wNow.weekday)
          (hhmmStr c2wNow.hour c2wNow.minute) 1 = [] → nb2 = none ∧ sched2 = c2wSched) ∧
      (¬(matchingActs (dayEvents c2wSched c2wNow.weekday)
          (hhmmStr c2wNow.hour c2wNow.minute) 1 = []) →
        ∃ sp, find_next_bell sp c2wNow = some (nb2, sched2))) ∧
    (∀ (t : Int) (acts : List (Int × Int)),
      SequentialIntervals (execIntervals t acts) ∧
      (execIntervals t acts).map (fun iv => (iv.1, iv.2.2 - iv.2.1)) = acts) :=
  C2_minute_edge_trigger c2wSched none c2wNow 1 (by decide)

/-! ## Touch handling (lines 704-753 of `main.py`) -/

/-- The three touch targets of `handle_touch`. -/
inductive TouchButton where
  | setup
  | sync
  | holiday
  deriving DecidableEq, Repr

/-- The free-floating touch-state globals of line 44 of `main.py`
(`touch_lock`, `held_button`, `touch_start_time`, `long_press_triggered`)
together with the display/holiday globals `handle_touch` reads or writes.
`persisted_holiday` mirrors the `holiday.dat` content written by
`save_holiday_status`. -/
structure TouchState where
  touch_lock : Bool
  held_button : Option TouchButton
  touch_start_time : Nat
  long_press_triggered : Bool
  display_on : Bool
  holiday_mode : Bool
  persisted_holiday : Bool
  deriving DecidableEq, Repr

/-- Externally observable actions of one `handle_touch` call.
`toggledHoliday b` stands for `save_holiday_status(not holiday_mode)` —
which both flips the global and persists it — with `b` the new value. -/
inductive TouchEffect where
  | toggledHoliday (newMode : Bool)
  | syncAndFetch
  | enterSetupMode
  | refreshedDisplay
  deriving DecidableEq, Repr

/-- Button rectangles of line 43 of `main.py`, with `DISPLAY_WIDTH = 240`:
`(x, y, w, h)`. -/
def SYNC_BUTTON_RECT : Nat × Nat × Nat × Nat := (155, 5, 80, 40)

/-- Holiday button rectangle `(5, 5, 80, 40)`. -/
def HOLIDAY_BUTTON_RECT : Nat × Nat × Nat × Nat := (5, 5, 80, 40)

/-- Setup button rectangle `(45, 100, 150, 40)`. -/
def SETUP_BUTTON_RECT : Nat × Nat × Nat × Nat := (45, 100, 150, 40)

/-- The inclusive hit test `btn_x <= x <= btn_x + btn_w and btn_y <= y <=
btn_y + btn_h` used at lines 724-729. -/
def inRect (r : Nat × Nat × Nat × Nat) (x y : Nat) : Prop :=
  r.1 ≤ x ∧ x ≤ r.1 + r.2.2.1 ∧ r.2.1 ≤ y ∧ y ≤ r.2.1 + r.2.2.2

instance (r : Nat × Nat × Nat × Nat) (x y : Nat) : Decidable (inRect r x y) :=
  inferInstanceAs (Decidable (_ ∧ _ ∧ _ ∧ _))

/-- Embedding of `handle_touch` (lines 704-753 of `main.py`) as one step:
given the connectivity-failure flag, the current state, the optional touch
sample and the current `utime.ticks_ms()` value, produce the new state and
the observable effects.  `ticks_diff(now, start)` is `now - start` (no
wrap-around within a press).  Cosmetic drawing inside the arm branch is not
modelled; `update_display` calls are the `refreshedDisplay` effect. -/
def handle_touch (wifiFailed : Bool) (st : TouchState) (pos : Option (Nat × Nat))
    (ticks : Nat) : TouchState × List TouchEffect :=
  match pos with
  | some (x, y) =>
    if ¬(st.display_on = true) then
      ({ st with display_on := true, touch_lock := true }, [])
    else
      let st1 :=
        if ¬(st.touch_lock = true) then
          if wifiFailed = true ∧ inRect SETUP_BUTTON_RECT x y then
            { st with touch_lock := true, held_button := some TouchButton.setup }
          else if inRect SYNC_BUTTON_RECT x y then
            { st with
              touch_lock := true, held_button := some TouchButton.sync,
              touch_start_time := ticks }
          else if inRect HOLIDAY_BUTTON_RECT x y then
            { st with
              touch_lock := true, held_button := some TouchButton.holiday,
              touch_start_time := ticks }
          else { st with touch_lock := true }
        else st
      if st1.held_button = some TouchButton.holiday ∧ ¬(st1.long_press_triggered = true) ∧
          2000 < ticks - st1.touch_start_time then
        ({ st1 with
            long_press_triggered := true, holiday_mode := !st1.holiday_mode,
            persisted_holiday := !st1.holiday_mode },
          [TouchEffect.toggledHoliday (!st1.holiday_mode), TouchEffect.refreshedDisplay])
      else (st1, [])
  | none =>
    ({ st with
        touch_lock := false, held_button := none, touch_start_time := 0,
        long_press_triggered := false },
      (if st.held_button = some TouchButton.setup then [TouchEffect.enterSetupMode]
       else if st.held_button = some TouchButton.sync ∧ ¬(st.long_press_triggered = true) then
         [TouchEffect.syncAndFetch]
       else []) ++
      (if st.touch_lock = true then [TouchEffect.refreshedDisplay] else []))

/-- The touch handler run over a list of `(sample, ticks)` observations, one
per loop tick, accumulating the emitted effects. -/
def runTouch (wifiFailed : Bool) : TouchState → List (Option (Nat × Nat) × Nat) →
    TouchState × List TouchEffect
  | st, [] => (st, [])
  | st, i :: rest =>
    ((runTouch wifiFailed (handle_touch wifiFailed st i.1 i.2).1 rest).1,
      (handle_touch wifiFailed st i.1 i.2).2 ++
        (runTouch wifiFailed (handle_touch wifiFailed st i.1 i.2).1 rest).2)

/-- Recognise the holiday-toggle effect. -/
def isToggle : TouchEffect → Bool
  | .toggledHoliday _ => true
  | _ => false

/-- Number of holiday toggles (each also a persist) in an effect list. -/
def toggleCount (effs : List TouchEffect) : Nat := effs.countP isToggle

/-- The state of a press armed on the Holiday button and not yet fired
(lines 729-733 have run, finger still down). -/
def ArmedOnHoliday (st : TouchState) : Prop :=
  st.touch_lock = true ∧ st.held_button = some TouchButton.holiday ∧
  st.long_press_triggered = false ∧ st.display_on = true

instance (st : TouchState) : Decidable (ArmedOnHoliday st) :=
  inferInstanceAs (Decidable (_ ∧ _ ∧ _ ∧ _))

theorem handle_touch_held_no_fire {w : Bool} {st : TouchState} {x y t : Nat}
    (harm : ArmedOnHoliday st) (hno : ¬(2000 < t - st.touch_start_time)) :
    handle_touch w st (some (x, y)) t = (st, []) := by
  obtain ⟨hl, hh, hlp, hd⟩ := harm
  simp only [handle_touch]
  rw [if_neg (show ¬¬(st.display_on = true) from fun hc => hc hd),
    if_neg (show ¬¬(st.touch_lock = true) from fun hc => hc hl),
    if_neg (show ¬(st.held_button = some TouchButton.holiday ∧ ¬(st.long_press_triggered = true) ∧
      2000 < t - st.touch_start_time) from fun h => hno h.2.2)]

theorem handle_touch_held_fire {w : Bool} {st : TouchState} {x y t : Nat}
    (harm : ArmedOnHoliday st) (hfire : 2000 < t - st.touch_start_time) :
    handle_touch w st (some (x, y)) t =
      ({ st with
          long_press_triggered := true, holiday_mode := !st.holiday_mode,
          persisted_holiday := !st.holiday_mode },
        [TouchEffect.toggledHoliday (!st.holiday_mode), TouchEffect.refreshedDisplay]) := by
  obtain ⟨hl, hh, hlp, hd⟩ := harm
  simp only [handle_touch]
  rw [if_neg (show ¬¬(st.display_on = true) from fun hc => hc hd),
    if_neg (show ¬¬(st.touch_lock = true) from fun hc => hc hl),
    if_pos (show st.held_button = some TouchButton.holiday ∧ ¬(st.long_press_triggered = true) ∧
      2000 < t - st.touch_start_time from ⟨hh, by simp [hlp], hfire⟩)]

theorem handle_touch_fired_stable {w : Bool} {st : TouchState} {x y t : Nat}
    (hl : st.touch_lock = true) (hlp : st.long_press_triggered = true)
    (hd : st.display_on = true) :
    handle_touch w st (some (x, y)) t = (st, []) := by
  simp only [handle_touch]
  rw [if_neg (show ¬¬(st.display_on = true) from fun hc => hc hd),
    if_neg (show ¬¬(st.touch_lock = true) from fun hc => hc hl),
    if_neg (show ¬(st.held_button = some TouchButton.holiday ∧ ¬(st.long_press_triggered = true) ∧
      2000 < t - st.touch_start_time) from fun h => h.2.1 hlp)]

/-- Releasing the touch never toggles HolidayMode, whatever the state. -/
theorem handle_touch_release_no_toggle (w : Bool) (st : TouchState) (t : Nat) :
    toggleCount (handle_touch w st none t).2 = 0 := by
  simp only [handle_touch]
  by_cases h1 : st.held_button = some TouchButton.setup
  · rw [if_pos h1]
    by_cases h2 : st.touch_lock = true
    · rw [if_pos h2]
      decide
    · rw [if_neg h2]
      decide
  · rw [if_neg h1]
    by_cases h2 : st.held_button = some TouchButton.sync ∧ ¬(st.long_press_triggered = true)
    · rw [if_pos h2]
      by_cases h3 : st.touch_lock = true
      · rw [if_pos h3]
        decide
      · rw [if_neg h3]
        decide
    · rw [if_neg h2]
      by_cases h3 : st.touch_lock = true
      · rw [if_pos h3]
        decide
      · rw [if_neg h3]
        decide

/-- Once the long press has fired, no further tick of the same press — held
samples and the final release — toggles again. -/
theorem runTouch_fired_no_more (w : Bool) :
    ∀ (ins : List (Option (Nat × Nat) × Nat)) (st : TouchState) (tRel : Nat),
    st.touch_lock = true → st.long_press_triggered = true → st.display_on = true →
    (∀ i ∈ ins, ¬(i.1 = none)) →
    toggleCount (runTouch w st (ins ++ [(none, tRel)])).2 = 0 := by
  intro ins
  induction ins with
  | nil =>
    intro st tRel _ _ _ _
    show toggleCount ((handle_touch w st none tRel).2 ++ []) = 0
    rw [List.append_nil]
    exact handle_touch_release_no_toggle w st tRel
  | cons i rest ih =>
    intro st tRel hl hlp hd htouch
    have hi := htouch i (List.mem_cons_self _ _)
    obtain ⟨pos, t⟩ := i
    cases pos with
    | none => exact absurd rfl hi
    | some p =>
      obtain ⟨x, y⟩ := p
      have hstep := handle_touch_fired_stable (w := w) (t := t) (x := x) (y := y) hl hlp hd
      show toggleCount ((handle_touch w st (some (x, y)) t).2 ++
        (runTouch w (handle_touch w st (some (x, y)) t).1 (rest ++ [(none, tRel)])).2) = 0
      rw [hstep]
      simp only [List.nil_append]
      exact ih st tRel hl hlp hd (fun j hj => htouch j (List.mem_cons_of_mem _ hj))

/-- C8 amended: for a press armed on the Holiday button, HolidayMode is
toggled (and persisted) exactly once when some poll tick observes a hold
strictly longer than 2000ms, and not at all otherwise — in particular a
press released when the elapsed hold is 2000ms or less toggles nothing, and
the toggle never re-fires while the button stays held. -/
theorem C8_holiday_long_press (w : Bool) :
    ∀ (ins : List (Option (Nat × Nat) × Nat)) (st : TouchState) (tRel : Nat),
    ArmedOnHoliday st → (∀ i ∈ ins, ¬(i.1 = none)) →
    toggleCount (runTouch w st (ins ++ [(none, tRel)])).2 =
      if ins.any (fun i => decide (2000 < i.2 - st.touch_start_time)) = true then 1
      else 0 := by
  intro ins
  induction ins with
  | nil =>
    intro st tRel harm htouch
    show toggleCount ((handle_touch w st none tRel).2 ++ []) = _
    rw [List.append_nil, handle_touch_release_no_toggle w st tRel]
    rfl
  | cons i rest ih =>
    intro st tRel harm htouch
    have hi := htouch i (List.mem_cons_self _ _)
    obtain ⟨pos, t⟩ := i
    cases pos with
    | none => exact absurd rfl hi
    | some p =>
      obtain ⟨x, y⟩ := p
      by_cases hfire : 2000 < t - st.touch_start_time
      · have hstep := handle_touch_held_fire (w := w) (x := x) (y := y) harm hfire
        show toggleCount ((handle_touch w st (some (x, y)) t).2 ++
          (runTouch w (handle_touch w st (some (x, y)) t).1 (rest ++ [(none, tRel)])).2) = _
        rw [hstep]
        have hrest := runTouch_fired_no_more w rest
          { st with
            long_press_triggered := true, holiday_mode := !st.holiday_mode,
            persisted_holiday := !st.holiday_mode } tRel harm.1 rfl harm.2.2.2
          (fun j hj => htouch j (List.mem_cons_of_mem _ hj))
        rw [toggleCount] at hrest
        rw [toggleCount, List.countP_append, hrest]
        have hany : (((some (x, y), t) :: rest).any
            (fun i => decide (2000 < i.2 - st.touch_start_time))) = true := by
          rw [List.any_cons]
          simp [hfire]
        rw [hany]
        rfl
      · have hstep := handle_touch_held_no_fire (w := w) (x := x) (y := y) harm hfire
        show toggleCount ((handle_touch w st (some (x, y)) t).2 ++
          (runTouch w (handle_touch w st (some (x, y)) t).1 (rest ++ [(none, tRel)])).2) = _
        rw [hstep]
        simp only [List.nil_append]
        rw [ih st tRel harm (fun j hj => htouch j (List.mem_cons_of_mem _ hj))]
        have hany : (((some (x, y), t) :: rest).any
            (fun i => decide (2000 < i.2 - st.touch_start_time))) =
            (rest.any (fun i => decide (2000 < i.2 - st.touch_start_time))) := by
          rw [List.any_cons]
          simp [hfire]
        rw [hany]

/-- Press armed on the Holiday button at tick 0, display on, not yet fired. -/
def c8St : TouchState :=
  { touch_lock := true, held_button := some TouchButton.holiday, touch_start_time := 0,
    long_press_triggered := false, display_on := true, holiday_mode := false,
    persisted_holiday := false }

/-- C8 counterexample: a press whose elapsed hold time reaches exactly
2000ms (one poll at tick 2000, then release) does not toggle HolidayMode at
all — line 736 of `main.py` fires only when the hold is strictly longer
than 2000ms (`> 2000`), while the claim promises a toggle once the hold
reaches 2000ms. -/
theorem C8_exact_2000ms_hold_does_not_toggle :
    2000 - c8St.touch_start_time ≥ 2000 ∧
    toggleCount (runTouch false c8St [(some (10, 10), 2000), (none, 2100)]).2 = 0 := by decide

/-- C8 witness: the long-press theorem at a concrete press — one poll at
2500ms, then release: the toggle fires exactly once. -/
theorem C8_holiday_long_press_witness :
    toggleCount (runTouch false c8St ([(some (10, 10), 2500)] ++ [(none, 2600)])).2 =
      if ([(some (10, 10), 2500)] : List (Option (Nat × Nat) × Nat)).any
          (fun i => decide (2000 < i.2 - c8St.touch_start_time)) = true then 1
      else 0 :=
  C8_holiday_long_press false [(some (10, 10), 2500)] c8St 2600 (by decide) (by decide)

end BellTimer
